import Mathlib

/-!
# Verification of the key-indexed ordered collection (SortedListWithKey)

Shallow embedding of `sortedcontainers/sortedlistwithkey.py`.

The collection stores entries `(key, value)` in a segmented ordered
sequence engine (`SortedList`, an external collaborator whose source is
not part of the repository snapshot; its operations are modelled from
the specification's engine contract and marked as such).  In key-only
mode (Python class `Pair`) entries compare by key alone; in
orderable-value mode entries are tuples compared lexicographically.

The engine state is modelled as the list of its chunks, each a list of
entries; the parallel chunk-maximum array (`_maxes`) is derived as the
last element of each chunk, which is exactly the boundary-consistency
invariant the engine maintains.  `_maxes is None` in the Python source
corresponds to an empty chunk list.
-/

set_option linter.unusedSectionVars false

namespace SLWKVerif

/-- Python exception outcomes distinguished by the source code:
`ValueError` (not-found / order violation) and `IndexError`
(out-of-range access). -/
inductive PyErr : Type where
  | valueError : PyErr
  | indexError : PyErr
deriving DecidableEq, Repr

variable {K V : Type}

/-- Order on entries used by the key-only representation (Python class
`Pair`): `__le__` compares keys only (`self.key <= that.key`). -/
def keyLe [LinearOrder K] (e f : K × V) : Prop := e.1 ≤ f.1

/-- Order on entries used by the orderable-value representation
(Python tuples): lexicographic comparison, key first, value as
tie-breaker. -/
def kvLe [LinearOrder K] [LinearOrder V] (e f : K × V) : Prop :=
  e.1 < f.1 ∨ (e.1 = f.1 ∧ e.2 ≤ f.2)

/-- The entry order active for a collection: by `(key, value)`
lexicographically when `value_orderable` is set, by key alone
otherwise. -/
def entryLe [LinearOrder K] [LinearOrder V] (ordered : Bool) : (K × V) → (K × V) → Prop :=
  if ordered then kvLe else keyLe

instance [LinearOrder K] : DecidableRel (keyLe (K := K) (V := V)) := by
  intro e f
  unfold keyLe
  infer_instance

instance [LinearOrder K] [LinearOrder V] : DecidableRel (kvLe (K := K) (V := V)) := by
  intro e f
  unfold kvLe
  infer_instance

instance [LinearOrder K] [LinearOrder V] (b : Bool) :
    DecidableRel (entryLe (K := K) (V := V) b) := by
  unfold entryLe
  cases b <;> simp <;> infer_instance

instance [LinearOrder K] : IsTotal (K × V) keyLe where
  total e f := le_total e.1 f.1

instance [LinearOrder K] : IsTrans (K × V) keyLe where
  trans _ _ _ h h' := le_trans h h'

instance [LinearOrder K] [LinearOrder V] : IsTotal (K × V) kvLe where
  total e f := by
    rcases lt_trichotomy e.1 f.1 with h | h | h
    · exact Or.inl (Or.inl h)
    · rcases le_total e.2 f.2 with h2 | h2
      · exact Or.inl (Or.inr ⟨h, h2⟩)
      · exact Or.inr (Or.inr ⟨h.symm, h2⟩)
    · exact Or.inr (Or.inl h)

instance [LinearOrder K] [LinearOrder V] : IsTrans (K × V) kvLe where
  trans e f g h h' := by
    rcases h with h | ⟨he, hv⟩
    · rcases h' with h' | ⟨he', _⟩
      · exact Or.inl (lt_trans h h')
      · exact Or.inl (he' ▸ h)
    · rcases h' with h' | ⟨he', hv'⟩
      · exact Or.inl (he ▸ h')
      · exact Or.inr ⟨he.trans he', le_trans hv hv'⟩

instance [LinearOrder K] [LinearOrder V] (b : Bool) : IsTotal (K × V) (entryLe b) := by
  cases b
  · simpa [entryLe] using (inferInstance : IsTotal (K × V) keyLe)
  · simpa [entryLe] using (inferInstance : IsTotal (K × V) kvLe)

instance [LinearOrder K] [LinearOrder V] (b : Bool) : IsTrans (K × V) (entryLe b) := by
  cases b
  · simpa [entryLe] using (inferInstance : IsTrans (K × V) keyLe)
  · simpa [entryLe] using (inferInstance : IsTrans (K × V) kvLe)

/-- The collection: key function, representation flag
(`value_orderable`), load factor, and the owned engine's chunk list
(`self._list._lists`). -/
structure SLWK (K V : Type) where
  key : V → K
  ordered : Bool
  load : Nat
  chunks : List (List (K × V))

namespace SLWK

variable [LinearOrder K] [LinearOrder V]

/-- The engine's entries flattened in chunk order. -/
def flat (s : SLWK K V) : List (K × V) := s.chunks.flatten

/-- The stored values in order (what iteration/`as_list` yields:
`tup[1]` of each entry). -/
def values (s : SLWK K V) : List V := (flat s).map Prod.snd

/-- `len(self)`: the engine's element count. -/
def slen (s : SLWK K V) : Nat := (flat s).length

/-- Modelled from the spec: the engine's parallel chunk-maximum array
`_maxes`.  By the boundary-consistency invariant it equals the true
maximum (= last, chunks being sorted) entry of each chunk, so it is
derived here rather than stored. -/
def maxes (chunks : List (List (K × V))) : List (K × V) :=
  chunks.filterMap List.getLast?

/-- Modelled from the spec: `bisect_left` from the Python standard
library, applied to a list sorted by key with a probe entry whose
comparisons look only at the key (class `Pair`): the first index whose
entry's key is not less than `k`.  On the sorted lists it is applied
to, this equals the binary search of the stdlib. -/
def bisectLeftK (k : K) (l : List (K × V)) : Nat :=
  (l.takeWhile (fun e => decide (e.1 < k))).length

/-- Modelled from the spec: the engine's `_loc(pos, idx)` operation
converting a `(chunk, offset)` position to a global rank. -/
def loc (chunks : List (List (K × V))) (pos idx : Nat) : Nat :=
  (((chunks.take pos).map List.length).sum) + idx

/-- Modelled from the spec: the engine's `_delete(pos, idx)` operation
deleting the entry at offset `idx` of chunk `pos` (the engine removes a
chunk that becomes empty; further rebalancing does not change the
flattened sequence). -/
def deleteAt : List (List (K × V)) → Nat → Nat → List (List (K × V))
  | [], _, _ => []
  | c :: cs, 0, i =>
      let c' := c.eraseIdx i
      if c'.isEmpty then cs else c' :: cs
  | c :: cs, p + 1, i => c :: deleteAt cs p i

/-- Modelled from the spec: re-wrap a flat sorted entry sequence as an
engine chunk list (the engine's internal chunk layout after a
structural update is unspecified; any chunking with the same
flattening satisfies its contract, a single chunk is used here). -/
def ofFlat (l : List (K × V)) : List (List (K × V)) :=
  if l.isEmpty then [] else [l]

/-- The key-only scan loop of `__contains__` (lines 121-133): `cur` is
the remaining portion of the current chunk (`_lists[pos]` from `idx`
on), `rest` the chunks after it.  Reading past the end of an empty
chunk — which the Python loop would do, since it indexes before any
bounds check — is an `IndexError`. -/
def scanContains [DecidableEq K] [DecidableEq V] (k : K) (v : V) :
    List (K × V) → List (List (K × V)) → Except PyErr Bool
  | e :: es, rest =>
      if e.1 = k then
        if e.2 = v then .ok true
        else scanContains k v es rest
      else .ok false
  | [], [] => .ok false
  | [], [] :: _ => .error .indexError
  | [], c :: rest => scanContains k v c rest
termination_by cur rest => (rest.length, cur.length)

/-- The key-only scan loop of `count` (lines 319-331), carrying the
running total. -/
def scanCount [DecidableEq K] [DecidableEq V] (k : K) (v : V) :
    List (K × V) → List (List (K × V)) → Nat → Except PyErr Nat
  | e :: es, rest, t =>
      if e.1 = k then
        scanCount k v es rest (if e.2 = v then t + 1 else t)
      else .ok t
  | [], [], t => .ok t
  | [], [] :: _, _ => .error .indexError
  | [], c :: rest, t => scanCount k v c rest t
termination_by cur rest _ => (rest.length, cur.length)

/-- The shared key-only scan loop of `discard` (lines 166-179) and
`remove` (lines 212-225): locate the `(pos, idx)` position of the
first entry in the equal-key run whose value equals `v`; `none` when
the run ends (or the collection is exhausted) without a value match. -/
def scanLocate [DecidableEq K] [DecidableEq V] (k : K) (v : V) :
    List (K × V) → List (List (K × V)) → Nat → Nat → Except PyErr (Option (Nat × Nat))
  | e :: es, rest, pos, idx =>
      if e.1 = k then
        if e.2 = v then .ok (some (pos, idx))
        else scanLocate k v es rest pos (idx + 1)
      else .ok none
  | [], [], _, _ => .ok none
  | [], [] :: _, _, _ => .error .indexError
  | [], c :: rest, pos, _ => scanLocate k v c rest (pos + 1) 0
termination_by cur rest _ _ => (rest.length, cur.length)

/-- The key-only scan loop of `index` (lines 421-435): on each value
match convert the position to a global rank via the engine's `_loc`
and accept it only when it falls in the `[start, stop)` window. -/
def scanIndex [DecidableEq K] [DecidableEq V] (chunks : List (List (K × V)))
    (k : K) (v : V) (start stop : Int) :
    List (K × V) → List (List (K × V)) → Nat → Nat → Except PyErr Nat
  | e :: es, rest, pos, idx =>
      if e.1 = k then
        if e.2 = v then
          let l := SLWK.loc chunks pos idx
          if start ≤ (l : Int) ∧ (l : Int) < stop then .ok l
          else scanIndex chunks k v start stop es rest pos (idx + 1)
        else scanIndex chunks k v start stop es rest pos (idx + 1)
      else .error .valueError
  | [], [], _, _ => .error .valueError
  | [], [] :: _, _, _ => .error .indexError
  | [], c :: rest, pos, _ => scanIndex chunks k v start stop c rest (pos + 1) 0
termination_by cur rest _ _ => (rest.length, cur.length)

/-- Modelled from the spec: the engine's order-preserving insert
(`SortedList.add`).  The resulting flattened sequence inserts the
entry at its sorted position; the chunk layout after the engine's
internal rebalancing is unspecified and re-wrapped by `ofFlat`. -/
def engineAdd (s : SLWK K V) (e : K × V) : SLWK K V :=
  { s with chunks := ofFlat ((flat s).orderedInsert (entryLe s.ordered) e) }

/-- `add(value)` (lines 85-88): build the entry by applying the key
function and hand it to the engine's order-preserving insert. -/
def add (s : SLWK K V) (v : V) : SLWK K V :=
  engineAdd s (s.key v, v)

/-- `update(iterable)` (lines 90-93): key each value and stream the
entries to the engine's batch insert (modelled from the spec as
repeated order-preserving inserts). -/
def update (s : SLWK K V) (vs : List V) : SLWK K V :=
  vs.foldl add s

/-- `__init__` (lines 42-79): start from an empty engine and insert
the initial values. -/
def mkColl (key : V → K) (load : Nat) (ordered : Bool) (init : List V) : SLWK K V :=
  update { key := key, ordered := ordered, load := load, chunks := [] } init

/-- `clear()` (lines 81-83). -/
def clearAll (s : SLWK K V) : SLWK K V :=
  { s with chunks := [] }

/-- `as_list()` (lines 437-439): the unwrapped values in order. -/
def asList (s : SLWK K V) : List V := values s

/-- `__contains__(value)` (lines 95-133).  In orderable-value mode it
delegates to the engine (modelled from the spec: engine membership of
the full entry in the flattened sequence); otherwise the two-level
bisect plus equal-key run scan. -/
def contains (s : SLWK K V) (v : V) : Except PyErr Bool :=
  let k := s.key v
  if s.ordered then .ok (decide ((k, v) ∈ flat s))
  else
    if s.chunks = [] then .ok false
    else
      let ms := maxes s.chunks
      let pos := bisectLeftK k ms
      if pos = ms.length then .ok false
      else
        let c := s.chunks.getD pos []
        let idx := bisectLeftK k c
        if idx < c.length then scanContains k v (c.drop idx) (s.chunks.drop (pos + 1))
        else .error .indexError

/-- Modelled from the spec: the engine's remove-by-value
(`SortedList.discard` / `SortedList.remove` on success): delete the
first stored entry equal to the probe entry; a no-op leaves the state
untouched. -/
def engineErase (s : SLWK K V) (e : K × V) : SLWK K V :=
  if e ∈ flat s then
    { s with chunks := ofFlat ((flat s).eraseP (fun f => decide (f = e))) }
  else s

/-- `discard(value)` (lines 135-179): remove the first occurrence of
`value`, doing nothing when it is absent. -/
def discard (s : SLWK K V) (v : V) : Except PyErr (SLWK K V) :=
  let k := s.key v
  if s.ordered then .ok (engineErase s (k, v))
  else
    if s.chunks = [] then .ok s
    else
      let ms := maxes s.chunks
      let pos := bisectLeftK k ms
      if pos = ms.length then .ok s
      else
        let c := s.chunks.getD pos []
        let idx := bisectLeftK k c
        if idx < c.length then
          match scanLocate k v (c.drop idx) (s.chunks.drop (pos + 1)) pos idx with
          | .ok none => .ok s
          | .ok (some (p, i)) => .ok { s with chunks := deleteAt s.chunks p i }
          | .error e => .error e
        else .error .indexError

/-- `remove(value)` (lines 181-225): like `discard` but raising
`ValueError` when `value` is absent (no chunk at all, query key above
every chunk maximum, or equal-key run exhausted without a value
match). -/
def remove (s : SLWK K V) (v : V) : Except PyErr (SLWK K V) :=
  let k := s.key v
  if s.ordered then
    if (k, v) ∈ flat s then .ok (engineErase s (k, v)) else .error .valueError
  else
    if s.chunks = [] then .error .valueError
    else
      let ms := maxes s.chunks
      let pos := bisectLeftK k ms
      if pos = ms.length then .error .valueError
      else
        let c := s.chunks.getD pos []
        let idx := bisectLeftK k c
        if idx < c.length then
          match scanLocate k v (c.drop idx) (s.chunks.drop (pos + 1)) pos idx with
          | .ok none => .error .valueError
          | .ok (some (p, i)) => .ok { s with chunks := deleteAt s.chunks p i }
          | .error e => .error e
        else .error .indexError

/-- `count(value)` (lines 292-331): number of occurrences, scanning
the whole equal-key run.  Orderable-value mode delegates to the engine
(modelled from the spec: count of equal entries). -/
def count (s : SLWK K V) (v : V) : Except PyErr Nat :=
  let k := s.key v
  if s.ordered then .ok ((flat s).countP (fun e => decide (e = (k, v))))
  else
    if s.chunks = [] then .ok 0
    else
      let ms := maxes s.chunks
      let pos := bisectLeftK k ms
      if pos = ms.length then .ok 0
      else
        let c := s.chunks.getD pos []
        let idx := bisectLeftK k c
        if idx < c.length then scanCount k v (c.drop idx) (s.chunks.drop (pos + 1)) 0
        else .error .indexError

/-- The `start` normalization of `index` (lines 391-396): default 0,
negative values relative to the length, then clamped below at 0. -/
def clampStart (n : Nat) (a : Option Int) : Int :=
  let s0 : Int := match a with | none => 0 | some x => x
  let s1 : Int := if s0 < 0 then s0 + (n : Int) else s0
  if s1 < 0 then 0 else s1

/-- The `stop` normalization of `index` (lines 398-403): default the
length, negative values relative to the length, then clamped above at
the length. -/
def clampStop (n : Nat) (b : Option Int) : Int :=
  let t0 : Int := match b with | none => (n : Int) | some x => x
  let t1 : Int := if t0 < 0 then t0 + (n : Int) else t0
  if t1 > (n : Int) then (n : Int) else t1

/-- Modelled from the spec: the engine's `index(value, start, stop)`
used by the orderable-value delegation: the smallest in-window global
rank holding an entry equal to the probe entry, with the same window
normalization, `ValueError` when the window is empty after clamping or
no in-window occurrence exists. -/
def engineIndex (l : List (K × V)) (e : K × V) (a b : Option Int) : Except PyErr Nat :=
  let n := l.length
  let st := clampStart n a
  let sp := clampStop n b
  if sp ≤ st then .error .valueError
  else
    let stN := st.toNat
    let w := (l.drop stN).take (sp.toNat - stN)
    let j := w.findIdx (fun f => decide (f = e))
    if j < w.length then .ok (stN + j) else .error .valueError

/-- `index(value, start, stop)` (lines 375-435). -/
def index (s : SLWK K V) (v : V) (a b : Option Int) : Except PyErr Nat :=
  let k := s.key v
  if s.ordered then engineIndex (flat s) (k, v) a b
  else
    let n := slen s
    let st := clampStart n a
    let sp := clampStop n b
    if sp ≤ st then .error .valueError
    else
      let ms := maxes s.chunks
      let pos := bisectLeftK k ms
      if pos = ms.length then .error .valueError
      else
        let c := s.chunks.getD pos []
        let idx := bisectLeftK k c
        if idx < c.length then
          scanIndex s.chunks k v st sp (c.drop idx) (s.chunks.drop (pos + 1)) pos idx
        else .error .indexError

/-- `__add__` (lines 441-455): a new collection with the same key
function, representation flag and load factor, populated through the
unordered batch path with this collection's values followed by the
other's. -/
def addColl (A B : SLWK K V) : SLWK K V :=
  update { key := A.key, ordered := A.ordered, load := A.load, chunks := [] }
    (asList A ++ asList B)

/-- `__eq__` (lines 488-491): equal lengths and pairwise equal values. -/
def eqColl (A B : SLWK K V) : Bool :=
  decide (slen A = slen B) &&
    ((values A).zip (values B)).all (fun p => decide (p.1 = p.2))

/-- `__ne__` (lines 493-496): different lengths or some pairwise
different values. -/
def neColl (A B : SLWK K V) : Bool :=
  decide (slen A ≠ slen B) ||
    ((values A).zip (values B)).any (fun p => decide (p.1 ≠ p.2))

/-- `__lt__` (lines 498-501): `len(self) <= len(that)` and pairwise
strictly smaller values. -/
def ltColl (A B : SLWK K V) : Bool :=
  decide (slen A ≤ slen B) &&
    ((values A).zip (values B)).all (fun p => decide (p.1 < p.2))

/-- `__le__` (lines 503-506): `len(self) <= len(that)` and pairwise
smaller-or-equal values. -/
def leColl (A B : SLWK K V) : Bool :=
  decide (slen A ≤ slen B) &&
    ((values A).zip (values B)).all (fun p => decide (p.1 ≤ p.2))

/-- `__gt__` (lines 508-511): `len(self) >= len(that)` and pairwise
strictly greater values. -/
def gtColl (A B : SLWK K V) : Bool :=
  decide (slen B ≤ slen A) &&
    ((values A).zip (values B)).all (fun p => decide (p.2 < p.1))

/-- `__ge__` (lines 513-516): `len(self) >= len(that)` and pairwise
greater-or-equal values. -/
def geColl (A B : SLWK K V) : Bool :=
  decide (slen B ≤ slen A) &&
    ((values A).zip (values B)).all (fun p => decide (p.2 ≤ p.1))

/-- Modelled from the spec: the engine's delete-by-position used by
`__delitem__` (line 233) and `pop` (line 373): negative indices are
relative to the length, an out-of-range position is an `IndexError`
surfaced immediately with the layout unchanged. -/
def engineDelIdx (s : SLWK K V) (i : Int) : Except PyErr (SLWK K V) :=
  let n := slen s
  let j : Int := if i < 0 then i + (n : Int) else i
  if 0 ≤ j ∧ j < (n : Int) then
    .ok { s with chunks := ofFlat ((flat s).eraseIdx j.toNat) }
  else .error .indexError

/-- `__delitem__(index)` for an integer index (lines 227-233). -/
def delItem (s : SLWK K V) (i : Int) : Except PyErr (SLWK K V) :=
  engineDelIdx s i

/-- `pop(index)` (lines 367-373): delete by position and return the
unwrapped value. -/
def popAt (s : SLWK K V) (i : Int) : Except PyErr (SLWK K V × V) :=
  let n := slen s
  let j : Int := if i < 0 then i + (n : Int) else i
  if 0 ≤ j ∧ j < (n : Int) then
    match (flat s)[j.toNat]? with
    | some e => .ok ({ s with chunks := ofFlat ((flat s).eraseIdx j.toNat) }, e.2)
    | none => .error .indexError
  else .error .indexError

/-- Modelled from the spec: the engine's replace-one-by-position used
by `__setitem__` (line 256): the replacement must re-validate the
global order, all-or-nothing (`ValueError` leaves the layout
unchanged). -/
def engineSetIdx (s : SLWK K V) (i : Int) (e : K × V) : Except PyErr (SLWK K V) :=
  let n := slen s
  let j : Int := if i < 0 then i + (n : Int) else i
  if 0 ≤ j ∧ j < (n : Int) then
    let l := (flat s).set j.toNat e
    if List.Sorted (entryLe s.ordered) l then .ok { s with chunks := ofFlat l }
    else .error .valueError
  else .error .indexError

/-- `__setitem__(index, value)` for an integer index (lines 246-256):
the key is recomputed for the newly assigned value. -/
def setItem (s : SLWK K V) (i : Int) (v : V) : Except PyErr (SLWK K V) :=
  engineSetIdx s i (s.key v, v)

/-- Modelled from the spec: the engine's position-constrained insert
used by `insert` (line 365): the index is normalized list-style and
the insertion fails with `ValueError`, leaving the layout unchanged,
if it would break the global order. -/
def engineInsertAt (s : SLWK K V) (i : Int) (e : K × V) : Except PyErr (SLWK K V) :=
  let n := slen s
  let j0 : Int := if i < 0 then i + (n : Int) else i
  let j : Nat := if j0 < 0 then 0 else if j0 > (n : Int) then n else j0.toNat
  let l := (flat s).insertIdx j e
  if List.Sorted (entryLe s.ordered) l then .ok { s with chunks := ofFlat l }
  else .error .valueError

/-- `insert(index, value)` (lines 359-365). -/
def insertAt (s : SLWK K V) (i : Int) (v : V) : Except PyErr (SLWK K V) :=
  engineInsertAt s i (s.key v, v)

/-- Modelled from the spec: the engine's order-validating append used
by `append` (line 349): the new entry goes at the end and must not
break the global order. -/
def engineAppendV (s : SLWK K V) (e : K × V) : Except PyErr (SLWK K V) :=
  let l := flat s ++ [e]
  if List.Sorted (entryLe s.ordered) l then .ok { s with chunks := ofFlat l }
  else .error .valueError

/-- `append(value)` (lines 343-349). -/
def appendV (s : SLWK K V) (v : V) : Except PyErr (SLWK K V) :=
  engineAppendV s (s.key v, v)

/-- Modelled from the spec: the engine's order-validating batch append
used by `extend` (line 357), all-or-nothing. -/
def engineExtendV (s : SLWK K V) (es : List (K × V)) : Except PyErr (SLWK K V) :=
  let l := flat s ++ es
  if List.Sorted (entryLe s.ordered) l then .ok { s with chunks := ofFlat l }
  else .error .valueError

/-- `extend(iterable)` (lines 351-357). -/
def extendV (s : SLWK K V) (vs : List V) : Except PyErr (SLWK K V) :=
  engineExtendV s (vs.map (fun v => (s.key v, v)))

/-- `__iadd__` (lines 457-463): in-place union via the unordered batch
path. -/
def iaddV (s : SLWK K V) (vs : List V) : SLWK K V :=
  update s vs

/-- `__imul__` (lines 478-486): materialize `that` copies of the value
list, clear, and re-insert. -/
def imulV (s : SLWK K V) (m : Nat) : SLWK K V :=
  update (clearAll s) ((List.replicate m (asList s)).flatten)

/-- `__mul__` (lines 465-476): a new collection with the same
configuration built from `that` copies of the value list. -/
def mulColl (s : SLWK K V) (m : Nat) : SLWK K V :=
  mkColl s.key s.load s.ordered ((List.replicate m (asList s)).flatten)

/-- Modelled from the spec: the engine's internal consistency
self-check (`SortedList._check`): chunks non-empty and globally sorted
under the entry order. -/
def engineCheck (s : SLWK K V) : Bool :=
  s.chunks.all (fun c => !c.isEmpty) &&
    decide (List.Sorted (entryLe s.ordered) (flat s))

/-- `_check` (lines 530-533): the engine's own check plus the
key/value consistency assertion
`all(pair[0] == _key(pair[1]) for pair in _list)`. -/
def check (s : SLWK K V) : Bool :=
  engineCheck s && (flat s).all (fun e => decide (e.1 = s.key e.2))

/-- One public mutating operation of the collection, as invocable by a
caller. -/
inductive Op (K V : Type) where
  | add (v : V)
  | update (vs : List V)
  | clear
  | discard (v : V)
  | remove (v : V)
  | delItem (i : Int)
  | setItem (i : Int) (v : V)
  | insertAt (i : Int) (v : V)
  | append (v : V)
  | extend (vs : List V)
  | pop (i : Int)
  | iadd (vs : List V)
  | imul (m : Nat)

/-- Run one public operation; an operation that raises leaves the
collection in its prior state (the source either checks before
mutating or mutates only through all-or-nothing engine calls). -/
def applyOp (s : SLWK K V) : Op K V → SLWK K V
  | .add v => add s v
  | .update vs => update s vs
  | .clear => clearAll s
  | .discard v => match discard s v with | .ok s' => s' | .error _ => s
  | .remove v => match remove s v with | .ok s' => s' | .error _ => s
  | .delItem i => match delItem s i with | .ok s' => s' | .error _ => s
  | .setItem i v => match setItem s i v with | .ok s' => s' | .error _ => s
  | .insertAt i v => match insertAt s i v with | .ok s' => s' | .error _ => s
  | .append v => match appendV s v with | .ok s' => s' | .error _ => s
  | .extend vs => match extendV s vs with | .ok s' => s' | .error _ => s
  | .pop i => match popAt s i with | .ok p => p.1 | .error _ => s
  | .iadd vs => iaddV s vs
  | .imul m => imulV s m

/-- Run a sequence of public operations. -/
def applyOps (s : SLWK K V) (ops : List (Op K V)) : SLWK K V :=
  ops.foldl applyOp s

/-- The structural invariant of the engine layout: every chunk is
non-empty (the engine removes emptied chunks) and the flattened
sequence is non-decreasing under the active entry order. -/
def EngineInv (s : SLWK K V) : Prop :=
  (∀ c ∈ s.chunks, c ≠ []) ∧ List.Sorted (entryLe s.ordered) (flat s)

/-- Key/value consistency: every stored entry's key is the key
function applied to its value. -/
def KeyConsistent (s : SLWK K V) : Prop :=
  ∀ e ∈ flat s, e.1 = s.key e.2

/-- The full invariant assumed of a reachable collection state. -/
def Inv (s : SLWK K V) : Prop :=
  EngineInv s ∧ KeyConsistent s

instance (s : SLWK K V) : Decidable (EngineInv s) := by
  unfold EngineInv
  infer_instance

instance (s : SLWK K V) : Decidable (KeyConsistent s) := by
  unfold KeyConsistent
  infer_instance

instance (s : SLWK K V) : Decidable (Inv s) := by
  unfold Inv
  infer_instance

/-! ### Generic facts about sorted chunked storage -/

omit [LinearOrder K] [LinearOrder V] in
/-- Each chunk of a globally sorted chunk list is itself sorted. -/
theorem sorted_of_mem_chunks {r : (K × V) → (K × V) → Prop}
    {chunks : List (List (K × V))} {c : List (K × V)}
    (hs : List.Sorted r chunks.flatten) (hc : c ∈ chunks) : List.Sorted r c :=
  List.Pairwise.sublist (List.sublist_flatten_of_mem hc) hs

omit [LinearOrder V] in
/-- In a list sorted by key, every element's key is at most the last
element's key. -/
theorem key_le_getLast_of_sorted {l : List (K × V)} {m : K × V}
    (hs : List.Sorted keyLe l) (hm : l.getLast? = some m) :
    ∀ e ∈ l, e.1 ≤ m.1 := by
  induction l with
  | nil => simp at hm
  | cons a t ih =>
    intro e he
    rcases List.mem_cons.mp he with rfl | het
    · cases t with
      | nil =>
        simp only [List.getLast?_singleton, Option.some.injEq] at hm
        exact hm ▸ le_rfl
      | cons b t2 =>
        have hm2 : (b :: t2).getLast? = some m := by
          simpa [List.getLast?_cons_cons] using hm
        have hmem : m ∈ b :: t2 := List.mem_of_getLast?_eq_some hm2
        exact (List.sorted_cons.mp hs).1 m hmem
    · cases t with
      | nil => simp at het
      | cons b t2 =>
        have hm2 : (b :: t2).getLast? = some m := by
          simpa [List.getLast?_cons_cons] using hm
        exact ih (List.sorted_cons.mp hs).2 hm2 e het

omit [LinearOrder V] in
/-- In a list sorted by key, the equal-key run that starts where the
keys below `k` end is exactly the set of entries with key `k`. -/
theorem run_eq_filter (k : K) {l : List (K × V)} (hs : List.Sorted keyLe l) :
    (l.dropWhile (fun e => decide (e.1 < k))).takeWhile (fun e => decide (e.1 = k))
      = l.filter (fun e => decide (e.1 = k)) := by
  induction l with
  | nil => simp
  | cons a t ih =>
    rcases List.sorted_cons.mp hs with ⟨ha, ht⟩
    by_cases hlt : a.1 < k
    · rw [List.dropWhile_cons_of_pos (by simpa using hlt),
        List.filter_cons_of_neg (by simpa using ne_of_lt hlt)]
      exact ih ht
    · rw [List.dropWhile_cons_of_neg (by simpa using hlt)]
      by_cases heq : a.1 = k
      · rw [List.takeWhile_cons_of_pos (by simpa using heq),
          List.filter_cons_of_pos (by simpa using heq)]
        congr 1
        -- within the tail, all keys are ≥ k, so the run is the filter
        clear ih hs
        induction t with
        | nil => simp
        | cons b t2 ih2 =>
          have hab : k ≤ b.1 := heq ▸ ha b (List.mem_cons_self b t2)
          rcases List.sorted_cons.mp ht with ⟨hb, ht2⟩
          by_cases hbk : b.1 = k
          · rw [List.takeWhile_cons_of_pos (by simpa using hbk),
              List.filter_cons_of_pos (by simpa using hbk)]
            congr 1
            exact ih2 (fun e he => ha e (List.mem_cons_of_mem b he)) ht2
          · have hkb : k < b.1 := lt_of_le_of_ne hab (fun h => hbk h.symm)
            rw [List.takeWhile_cons_of_neg (by simpa using hbk),
              List.filter_cons_of_neg (by simpa using hbk)]
            symm
            rw [List.filter_eq_nil_iff]
            intro e he
            have : b.1 ≤ e.1 := hb e he
            simp only [decide_eq_true_eq]
            exact ne_of_gt (lt_of_lt_of_le hkb this)
      · have hk : k < a.1 := lt_of_le_of_ne (le_of_not_lt hlt) (fun h => heq h.symm)
        rw [List.takeWhile_cons_of_neg (by simpa using heq),
          List.filter_cons_of_neg (by simpa using heq)]
        symm
        rw [List.filter_eq_nil_iff]
        intro e he
        have : a.1 ≤ e.1 := ha e he
        simp only [decide_eq_true_eq]
        exact ne_of_gt (lt_of_lt_of_le hk this)

omit [LinearOrder V] in
/-- Dropping the bisect-left count of a list is dropping the prefix of
smaller keys. -/
theorem drop_bisectLeftK (k : K) (l : List (K × V)) :
    l.drop (bisectLeftK k l) = l.dropWhile (fun e => decide (e.1 < k)) := by
  nth_rewrite 2 [← List.takeWhile_append_dropWhile
    (p := fun e : K × V => decide (e.1 < k)) (l := l)]
  exact List.drop_left' rfl

omit [LinearOrder V] in
/-- When the bisect over the chunk maxima runs off the end, every
stored entry's key is below the query key. -/
theorem bisect_exhausted (k : K) {chunks : List (List (K × V))}
    (hne : ∀ c ∈ chunks, c ≠ [])
    (hsort : List.Sorted keyLe chunks.flatten)
    (h : bisectLeftK k (maxes chunks) = (maxes chunks).length) :
    ∀ e ∈ chunks.flatten, e.1 < k := by
  have htw : (maxes chunks).takeWhile (fun e => decide (e.1 < k)) = maxes chunks :=
    (List.takeWhile_sublist _).eq_of_length h
  have hall : ∀ m ∈ maxes chunks, m.1 < k := by
    intro m hm
    simpa using List.takeWhile_eq_self_iff.mp htw m hm
  intro e he
  rcases List.mem_flatten.mp he with ⟨c, hc, hec⟩
  have hcne : c.getLast? ≠ none := by
    simpa [List.getLast?_eq_none_iff] using hne c hc
  rcases Option.ne_none_iff_exists'.mp hcne with ⟨m, hm⟩
  have hmem : m ∈ maxes chunks := List.mem_filterMap.mpr ⟨c, hc, hm⟩
  exact lt_of_le_of_lt
    (key_le_getLast_of_sorted (sorted_of_mem_chunks hsort hc) hm e hec)
    (hall m hmem)

omit [LinearOrder V] in
/-- The two-level bisect of the key-only scans: when the bisect over
the chunk maxima lands on chunk `pos`, the inner bisect lands strictly
inside that chunk, the scan start position covers exactly the suffix
of entries with key at least `k`, and its global rank is the number of
entries with key below `k`. -/
theorem bisect_entry (k : K) :
    ∀ (chunks : List (List (K × V))),
    (∀ c ∈ chunks, c ≠ []) →
    List.Sorted keyLe chunks.flatten →
    ∀ pos, pos = bisectLeftK k (maxes chunks) →
    pos < (maxes chunks).length →
    ∀ idx, idx = bisectLeftK k (chunks.getD pos []) →
    pos < chunks.length ∧
    idx < (chunks.getD pos []).length ∧
    ((chunks.getD pos []).drop idx ++ (chunks.drop (pos + 1)).flatten
      = chunks.flatten.dropWhile (fun e => decide (e.1 < k))) ∧
    loc chunks pos idx
      = (chunks.flatten.takeWhile (fun e => decide (e.1 < k))).length := by
  intro chunks
  induction chunks with
  | nil =>
    intro _ _ pos hpos hlt idx hidx
    simp [maxes] at hlt
  | cons c cs ih =>
    intro hne hsort pos hpos hlt idx hidx
    have hcne : c ≠ [] := hne c (List.mem_cons_self c cs)
    have hcne2 : c.getLast? ≠ none := by
      simpa [List.getLast?_eq_none_iff] using hcne
    rcases Option.ne_none_iff_exists'.mp hcne2 with ⟨m, hm⟩
    have hmx : maxes (c :: cs) = m :: maxes cs := by
      simp [maxes, List.filterMap_cons, hm]
    have hcsort : List.Sorted keyLe c :=
      sorted_of_mem_chunks hsort (List.mem_cons_self c cs)
    have hcssort : List.Sorted keyLe cs.flatten := by
      have : cs.flatten.Sublist (c :: cs).flatten := by
        simp only [List.flatten_cons]
        exact List.sublist_append_right c cs.flatten
      exact List.Pairwise.sublist this hsort
    by_cases hmk : m.1 < k
    · -- the query key lies beyond this chunk's maximum: recurse
      have hposs : pos = bisectLeftK k (maxes cs) + 1 := by
        rw [hpos, hmx, bisectLeftK, List.takeWhile_cons_of_pos (by simpa using hmk)]
        simp [bisectLeftK]
      have hclt : ∀ e ∈ c, (fun e : K × V => decide (e.1 < k)) e = true := by
        intro e he
        simpa using lt_of_le_of_lt (key_le_getLast_of_sorted hcsort hm e he) hmk
      have hflat : (c :: cs).flatten = c ++ cs.flatten := by simp
      have hdw : (c :: cs).flatten.dropWhile (fun e => decide (e.1 < k))
          = cs.flatten.dropWhile (fun e => decide (e.1 < k)) := by
        rw [hflat]
        exact List.dropWhile_append_of_pos hclt
      have htw : (c :: cs).flatten.takeWhile (fun e => decide (e.1 < k))
          = c ++ cs.flatten.takeWhile (fun e => decide (e.1 < k)) := by
        rw [hflat]
        exact List.takeWhile_append_of_pos hclt
      set pos' := bisectLeftK k (maxes cs) with hpos'
      have hlt' : pos' < (maxes cs).length := by
        rw [hmx] at hlt
        simp only [List.length_cons] at hlt
        omega
      have hgd : (c :: cs).getD (pos' + 1) [] = cs.getD pos' [] := by
        simp [List.getD_cons_succ]
      have hidx' : idx = bisectLeftK k (cs.getD pos' []) := by
        rw [hidx, hposs, hgd]
      have hne' : ∀ d ∈ cs, d ≠ [] := fun d hd => hne d (List.mem_cons_of_mem c hd)
      rcases ih hne' hcssort pos' rfl hlt' idx hidx' with ⟨h1, h2, h3, h4⟩
      refine ⟨?_, ?_, ?_, ?_⟩
      · rw [hposs]
        simpa using Nat.succ_lt_succ h1
      · rw [hposs, hgd]
        exact h2
      · rw [hposs, hgd, hdw]
        have hdrop : (c :: cs).drop (pos' + 1 + 1) = cs.drop (pos' + 1) := by
          simp [List.drop_succ_cons]
        rw [hdrop]
        exact h3
      · rw [hposs, htw]
        have : loc (c :: cs) (pos' + 1) idx = c.length + loc cs pos' idx := by
          simp [loc, List.take_succ_cons, Nat.add_assoc]
        rw [this, h4]
        simp
    · -- the query key is at or below this chunk's maximum: scan here
      have hpos0 : pos = 0 := by
        rw [hpos, hmx, bisectLeftK, List.takeWhile_cons_of_neg (by simpa using hmk)]
        simp
      subst hpos0
      have hgd : (c :: cs).getD 0 [] = c := rfl
      rw [hgd] at hidx
      have hmemc : m ∈ c := List.mem_of_getLast?_eq_some hm
      have hidxlt : idx < c.length := by
        have hle : idx ≤ c.length := by
          rw [hidx]
          exact (List.takeWhile_sublist _).length_le
        rcases lt_or_eq_of_le hle with h | h
        · exact h
        · exfalso
          have hlen : (c.takeWhile (fun e => decide (e.1 < k))).length = c.length := by
            rw [← bisectLeftK, ← hidx]
            exact h
          have htwc : c.takeWhile (fun e => decide (e.1 < k)) = c :=
            (List.takeWhile_sublist _).eq_of_length hlen
          have := List.takeWhile_eq_self_iff.mp htwc m hmemc
          simp only [decide_eq_true_eq] at this
          exact hmk this
      have hdwne : c.dropWhile (fun e => decide (e.1 < k)) ≠ [] := by
        intro hnil
        have hlen := congrArg List.length
          (List.takeWhile_append_dropWhile (fun e : K × V => decide (e.1 < k)) c)
        rw [List.length_append, hnil] at hlen
        simp only [List.length_nil, Nat.add_zero] at hlen
        rw [← bisectLeftK] at hlen
        omega
      have hflat : (c :: cs).flatten = c ++ cs.flatten := by simp
      refine ⟨by simp, hgd ▸ hidxlt, ?_, ?_⟩
      · rw [hgd, hidx, drop_bisectLeftK k c, hflat, List.dropWhile_append,
          if_neg (by simpa using hdwne)]
        simp
      · rw [hflat, List.takeWhile_append]
        have hne2 : (c.takeWhile (fun e => decide (e.1 < k))).length ≠ c.length := by
          rw [← bisectLeftK, ← hidx]
          omega
        rw [if_neg hne2]
        simp [loc, hidx, bisectLeftK]

/-! ### The scan loops, reduced to the flat suffix they traverse -/

/-- The `__contains__` scan equals an `any` over the equal-key run at
the head of the flat suffix it starts on, provided no chunk ahead of
it is empty. -/
theorem scanContains_eq [DecidableEq K] [DecidableEq V] (k : K) (v : V)
    (cur : List (K × V)) (rest : List (List (K × V)))
    (hne : ∀ c ∈ rest, c ≠ []) :
    scanContains k v cur rest =
      .ok (((cur ++ rest.flatten).takeWhile (fun e => decide (e.1 = k))).any
        (fun e => decide (e.2 = v))) := by
  induction cur, rest using scanContains.induct k v with
  | case1 e es rest hek hev =>
    simp [scanContains, hek, hev, List.takeWhile_cons_of_pos]
  | case2 e es rest hek hev ih =>
    rw [scanContains]
    simp only [if_pos hek, if_neg hev]
    rw [ih hne]
    simp [List.takeWhile_cons_of_pos, hek, hev]
  | case3 e es rest hek =>
    simp [scanContains, hek, List.takeWhile_cons_of_neg]
  | case4 =>
    simp [scanContains]
  | case5 rest =>
    exact absurd rfl (hne [] (List.mem_cons_self [] rest))
  | case6 c rest hc ih =>
    rw [scanContains.eq_def]
    split
    · simp_all
    · simp_all
    · simp_all
    · rename_i heq
      injection heq with h1 h2
      subst h1
      subst h2
      rw [ih (fun d hd => hne d (List.mem_cons_of_mem _ hd))]
      simp

/-- The `count` scan equals its accumulator plus a `countP` over the
equal-key run at the head of the flat suffix. -/
theorem scanCount_eq [DecidableEq K] [DecidableEq V] (k : K) (v : V)
    (cur : List (K × V)) (rest : List (List (K × V))) (t : Nat)
    (hne : ∀ c ∈ rest, c ≠ []) :
    scanCount k v cur rest t =
      .ok (t + ((cur ++ rest.flatten).takeWhile (fun e => decide (e.1 = k))).countP
        (fun e => decide (e.2 = v))) := by
  induction cur, rest, t using scanCount.induct k v with
  | case1 e es rest t hek ih =>
    rw [scanCount]
    simp only [if_pos hek]
    simp only [dite_eq_ite] at ih
    rw [ih hne]
    by_cases hev : e.2 = v
    · simp [List.takeWhile_cons_of_pos, hek, hev, List.countP_cons]
      omega
    · simp [List.takeWhile_cons_of_pos, hek, hev, List.countP_cons]
  | case2 e es rest t hek =>
    simp [scanCount, hek, List.takeWhile_cons_of_neg]
  | case3 t =>
    simp [scanCount]
  | case4 rest t =>
    exact absurd rfl (hne [] (List.mem_cons_self [] rest))
  | case5 c rest t hc ih =>
    rw [scanCount.eq_def]
    split
    · simp_all
    · simp_all
    · simp_all
    · rename_i heq
      injection heq with h1 h2
      subst h1
      subst h2
      rw [ih (fun d hd => hne d (List.mem_cons_of_mem _ hd))]
      simp

/-- Reference form of the locate scan on a flat entry list: position
of the first value match inside the equal-key run at the head, `none`
when the run ends (or the list ends) first. -/
def flatLocate [DecidableEq K] [DecidableEq V] (k : K) (v : V) : List (K × V) → Option Nat
  | [] => none
  | e :: es =>
      if e.1 = k then
        if e.2 = v then some 0
        else (flatLocate k v es).map (· + 1)
      else none

omit [LinearOrder K] [LinearOrder V] in
/-- Dropping one more element peels the head off a `drop`. -/
theorem drop_succ_of_drop_cons {α : Type} {l : List α} {n : Nat} {a : α} {t : List α}
    (h : l.drop n = a :: t) : l.drop (n + 1) = t := by
  rw [← List.drop_drop, h]
  rfl

/-- Stepping to the start of the next chunk preserves the global rank
when the current chunk is exhausted. -/
theorem loc_succ (chunks : List (List (K × V))) (pos : Nat) (h : pos < chunks.length) :
    loc chunks (pos + 1) 0 = loc chunks pos (chunks.getD pos []).length := by
  have h2 : pos < (chunks.map List.length).length := by simpa using h
  simp only [loc, Nat.add_zero, List.map_take]
  rw [List.sum_take_succ _ pos h2]
  simp [List.getD_eq_getElem?_getD, List.getElem?_eq_getElem h]

/-- Advancing one slot inside a chunk advances the global rank by
one. -/
theorem loc_idx_succ (chunks : List (List (K × V))) (pos idx : Nat) :
    loc chunks pos (idx + 1) = loc chunks pos idx + 1 := by
  simp [loc, Nat.add_assoc]

/-- The `discard`/`remove` locate scan, reduced to `flatLocate` on the
flat suffix: it reports no match exactly when the flat scan does, and
on a match it reports a position that is in bounds and whose global
rank is the scan start's rank plus the flat-scan offset. -/
theorem scanLocate_eq [DecidableEq K] [DecidableEq V] (k : K) (v : V)
    (chunks : List (List (K × V))) (hch : ∀ c ∈ chunks, c ≠ [])
    (cur : List (K × V)) (rest : List (List (K × V))) (pos idx : Nat) :
    pos < chunks.length →
    cur = (chunks.getD pos []).drop idx →
    rest = chunks.drop (pos + 1) →
    idx ≤ (chunks.getD pos []).length →
    (flatLocate k v (cur ++ rest.flatten) = none →
        scanLocate k v cur rest pos idx = .ok none) ∧
    (∀ j, flatLocate k v (cur ++ rest.flatten) = some j →
        ∃ p i, scanLocate k v cur rest pos idx = .ok (some (p, i)) ∧
          p < chunks.length ∧ i < (chunks.getD p []).length ∧
          loc chunks p i = loc chunks pos idx + j) := by
  induction cur, rest, pos, idx using scanLocate.induct k v with
  | case1 e es rest pos idx hek hev =>
    intro hpos hcur hrest hidx
    have hidxlt : idx < (chunks.getD pos []).length := by
      have := congrArg List.length hcur
      simp only [List.length_drop, List.length_cons] at this
      omega
    constructor
    · intro h
      rw [List.cons_append, flatLocate, if_pos hek, if_pos hev] at h
      exact absurd h (by simp)
    · intro j hj
      rw [List.cons_append, flatLocate, if_pos hek, if_pos hev] at hj
      have hj0 : j = 0 := by simpa using hj.symm
      subst hj0
      refine ⟨pos, idx, ?_, hpos, hidxlt, by simp⟩
      rw [scanLocate]
      simp [hek, hev]
  | case2 e es rest pos idx hek hev ih =>
    intro hpos hcur hrest hidx
    have hidxlt : idx < (chunks.getD pos []).length := by
      have := congrArg List.length hcur
      simp only [List.length_drop, List.length_cons] at this
      omega
    have hes : es = (chunks.getD pos []).drop (idx + 1) :=
      (drop_succ_of_drop_cons hcur.symm).symm
    rcases ih hpos hes hrest (by omega) with ⟨ihn, ihs⟩
    constructor
    · intro h
      rw [List.cons_append, flatLocate, if_pos hek, if_neg hev] at h
      rw [scanLocate]
      simp only [if_pos hek, if_neg hev]
      exact ihn (by simpa using h)
    · intro j hj
      rw [List.cons_append, flatLocate, if_pos hek, if_neg hev] at hj
      rcases Option.map_eq_some'.mp hj with ⟨j2, hj2, rfl⟩
      rcases ihs j2 hj2 with ⟨p, i, hsc, hp, hi, hl⟩
      refine ⟨p, i, ?_, hp, hi, ?_⟩
      · rw [scanLocate]
        simp only [if_pos hek, if_neg hev]
        exact hsc
      · rw [hl, loc_idx_succ]
        omega
  | case3 e es rest pos idx hek =>
    intro hpos hcur hrest hidx
    constructor
    · intro _
      rw [scanLocate]
      simp [hek]
    · intro j hj
      rw [List.cons_append, flatLocate, if_neg hek] at hj
      exact absurd hj (by simp)
  | case4 pos idx =>
    intro hpos hcur hrest hidx
    constructor
    · intro _
      rw [scanLocate]
    · intro j hj
      simp [flatLocate] at hj
  | case5 rest pos idx =>
    intro hpos hcur hrest hidx
    exfalso
    have : ([] : List (K × V)) ∈ chunks := by
      have : ([] : List (K × V)) ∈ chunks.drop (pos + 1) := by
        rw [← hrest]
        exact List.mem_cons_self [] rest
      exact List.mem_of_mem_drop this
    exact hch [] this rfl
  | case6 c rest2 pos idx hc ih =>
    intro hpos hcur hrest hidx
    obtain ⟨e0, c2, rfl⟩ : ∃ e0 c2, c = e0 :: c2 := by
      rcases List.exists_cons_of_ne_nil (fun h => hc h) with ⟨e0, c2, h⟩
      exact ⟨e0, c2, h⟩
    have hstep : scanLocate k v [] ((e0 :: c2) :: rest2) pos idx
        = scanLocate k v (e0 :: c2) rest2 (pos + 1) 0 := by
      rw [scanLocate.eq_def]
    have hdropc : chunks.drop (pos + 1) = (e0 :: c2) :: rest2 := hrest.symm
    have hpos1 : pos + 1 < chunks.length := by
      by_contra hle
      have hnil : chunks.drop (pos + 1) = [] := List.drop_eq_nil_of_le (by omega)
      rw [hdropc] at hnil
      exact List.cons_ne_nil _ _ hnil
    have hc1 : chunks.getD (pos + 1) [] = e0 :: c2 := by
      have h0 : (chunks.drop (pos + 1)).head? = some (e0 :: c2) := by
        rw [hdropc]
        rfl
      rw [List.head?_drop] at h0
      rw [List.getD_eq_getElem?_getD, h0]
      rfl
    have hr2 : rest2 = chunks.drop (pos + 1 + 1) := by
      rw [drop_succ_of_drop_cons hdropc]
    have hcc : e0 :: c2 = (chunks.getD (pos + 1) []).drop 0 := by
      rw [hc1]
      rfl
    have hidxeq : idx = (chunks.getD pos []).length := by
      have := congrArg List.length hcur
      simp only [List.length_drop, List.length_nil] at this
      omega
    have hloceq : loc chunks (pos + 1) 0 = loc chunks pos idx := by
      rw [loc_succ chunks pos hpos, hidxeq]
    rcases ih hpos1 hcc hr2 (by omega) with ⟨ihn, ihs⟩
    constructor
    · intro h
      rw [hstep]
      exact ihn (by simpa using h)
    · intro j hj
      simp only [List.nil_append, List.flatten_cons] at hj
      rcases ihs j (by simpa using hj) with ⟨p, i, hsc, hp, hi, hl⟩
      refine ⟨p, i, ?_, hp, hi, ?_⟩
      · rw [hstep]
        exact hsc
      · rw [hl, hloceq]

/-- Reference form of the `index` scan on a flat entry list with the
global rank carried explicitly: first in-window value match inside the
equal-key run at the head, `ValueError` when the run or the list ends
first. -/
def flatIndexLoop [DecidableEq K] [DecidableEq V] (k : K) (v : V) (start stop : Int) :
    List (K × V) → Nat → Except PyErr Nat
  | [], _ => .error .valueError
  | e :: es, r =>
      if e.1 = k then
        if e.2 = v then
          if start ≤ (r : Int) ∧ (r : Int) < stop then .ok r
          else flatIndexLoop k v start stop es (r + 1)
        else flatIndexLoop k v start stop es (r + 1)
      else .error .valueError

/-- The `index` scan, reduced to `flatIndexLoop` on the flat suffix
starting at the scan start's global rank. -/
theorem scanIndex_eq [DecidableEq K] [DecidableEq V]
    (chunks : List (List (K × V))) (k : K) (v : V) (st sp : Int)
    (hch : ∀ c ∈ chunks, c ≠ [])
    (cur : List (K × V)) (rest : List (List (K × V))) (pos idx : Nat) :
    pos < chunks.length →
    cur = (chunks.getD pos []).drop idx →
    rest = chunks.drop (pos + 1) →
    idx ≤ (chunks.getD pos []).length →
    scanIndex chunks k v st sp cur rest pos idx
      = flatIndexLoop k v st sp (cur ++ rest.flatten) (loc chunks pos idx) := by
  induction cur, rest, pos, idx using scanIndex.induct chunks k v st sp with
  | case1 e es rest pos idx hek hev l hwin =>
    intro hpos hcur hrest hidx
    have hP : st ≤ ((loc chunks pos idx : Nat) : Int) ∧
        ((loc chunks pos idx : Nat) : Int) < sp := hwin
    rw [scanIndex, List.cons_append, flatIndexLoop]
    simp only [if_pos hek, if_pos hev, if_pos hP]
  | case2 e es rest pos idx hek hev l hwin ih =>
    intro hpos hcur hrest hidx
    have hP : ¬(st ≤ ((loc chunks pos idx : Nat) : Int) ∧
        ((loc chunks pos idx : Nat) : Int) < sp) := hwin
    have hidxlt : idx < (chunks.getD pos []).length := by
      have := congrArg List.length hcur
      simp only [List.length_drop, List.length_cons] at this
      omega
    have hes : es = (chunks.getD pos []).drop (idx + 1) :=
      (drop_succ_of_drop_cons hcur.symm).symm
    rw [scanIndex, List.cons_append, flatIndexLoop]
    simp only [if_pos hek, if_pos hev, if_neg hP]
    rw [ih hpos hes hrest (by omega), loc_idx_succ]
  | case3 e es rest pos idx hek hev ih =>
    intro hpos hcur hrest hidx
    have hidxlt : idx < (chunks.getD pos []).length := by
      have := congrArg List.length hcur
      simp only [List.length_drop, List.length_cons] at this
      omega
    have hes : es = (chunks.getD pos []).drop (idx + 1) :=
      (drop_succ_of_drop_cons hcur.symm).symm
    rw [scanIndex, List.cons_append, flatIndexLoop]
    simp only [if_pos hek, if_neg hev]
    rw [ih hpos hes hrest (by omega), loc_idx_succ]
  | case4 e es rest pos idx hek =>
    intro hpos hcur hrest hidx
    rw [scanIndex, List.cons_append, flatIndexLoop]
    simp only [if_neg hek]
  | case5 pos idx =>
    intro hpos hcur hrest hidx
    rw [scanIndex]
    rfl
  | case6 rest pos idx =>
    intro hpos hcur hrest hidx
    exfalso
    have hmem : ([] : List (K × V)) ∈ chunks := by
      have h0 : ([] : List (K × V)) ∈ chunks.drop (pos + 1) := by
        rw [← hrest]
        exact List.mem_cons_self [] rest
      exact List.mem_of_mem_drop h0
    exact hch [] hmem rfl
  | case7 c rest2 pos idx hc ih =>
    intro hpos hcur hrest hidx
    obtain ⟨e0, c2, rfl⟩ : ∃ e0 c2, c = e0 :: c2 := by
      rcases List.exists_cons_of_ne_nil (fun h => hc h) with ⟨e0, c2, h⟩
      exact ⟨e0, c2, h⟩
    have hstep : scanIndex chunks k v st sp [] ((e0 :: c2) :: rest2) pos idx
        = scanIndex chunks k v st sp (e0 :: c2) rest2 (pos + 1) 0 := by
      rw [scanIndex.eq_def]
    have hdropc : chunks.drop (pos + 1) = (e0 :: c2) :: rest2 := hrest.symm
    have hpos1 : pos + 1 < chunks.length := by
      by_contra hle
      have hnil : chunks.drop (pos + 1) = [] := List.drop_eq_nil_of_le (by omega)
      rw [hdropc] at hnil
      exact List.cons_ne_nil _ _ hnil
    have hc1 : chunks.getD (pos + 1) [] = e0 :: c2 := by
      have h0 : (chunks.drop (pos + 1)).head? = some (e0 :: c2) := by
        rw [hdropc]
        rfl
      rw [List.head?_drop] at h0
      rw [List.getD_eq_getElem?_getD, h0]
      rfl
    have hr2 : rest2 = chunks.drop (pos + 1 + 1) := by
      rw [drop_succ_of_drop_cons hdropc]
    have hcc : e0 :: c2 = (chunks.getD (pos + 1) []).drop 0 := by
      rw [hc1]
      rfl
    have hidxeq : idx = (chunks.getD pos []).length := by
      have := congrArg List.length hcur
      simp only [List.length_drop, List.length_nil] at this
      omega
    have hloceq : loc chunks (pos + 1) 0 = loc chunks pos idx := by
      rw [loc_succ chunks pos hpos, hidxeq]
    rw [hstep, ih hpos1 hcc hr2 (by omega), hloceq]
    simp

/-! ### Facts about the flat locate scan and positional deletion -/

omit [LinearOrder K] [LinearOrder V] in
/-- `flatLocate` finds nothing exactly when the equal-key run at the
head holds no value match. -/
theorem flatLocate_eq_none_iff [DecidableEq K] [DecidableEq V] (k : K) (v : V)
    (xs : List (K × V)) :
    flatLocate k v xs = none ↔
      ∀ e ∈ xs.takeWhile (fun e => decide (e.1 = k)), e.2 ≠ v := by
  induction xs with
  | nil => simp [flatLocate]
  | cons e es ih =>
    by_cases hek : e.1 = k
    · by_cases hev : e.2 = v
      · simp [flatLocate, hek, hev, List.takeWhile_cons_of_pos]
      · rw [flatLocate, if_pos hek, if_neg hev,
          List.takeWhile_cons_of_pos (by simpa using hek)]
        simp only [Option.map_eq_none', List.mem_cons]
        constructor
        · intro h f hf
          rcases hf with rfl | hf
          · exact hev
          · exact ih.mp h f hf
        · intro h
          exact ih.mpr (fun f hf => h f (Or.inr hf))
    · simp [flatLocate, hek, List.takeWhile_cons_of_neg]

omit [LinearOrder K] [LinearOrder V] in
/-- A successful `flatLocate` pinpoints an actual in-run value match. -/
theorem flatLocate_eq_some [DecidableEq K] [DecidableEq V] (k : K) (v : V) :
    ∀ (xs : List (K × V)) (j : Nat), flatLocate k v xs = some j →
      j < xs.length ∧ ∃ e, xs[j]? = some e ∧ e.1 = k ∧ e.2 = v := by
  intro xs
  induction xs with
  | nil => simp [flatLocate]
  | cons e es ih =>
    intro j hj
    by_cases hek : e.1 = k
    · by_cases hev : e.2 = v
      · rw [flatLocate, if_pos hek, if_pos hev] at hj
        have : j = 0 := by simpa using hj.symm
        subst this
        exact ⟨by simp, e, by simp, hek, hev⟩
      · rw [flatLocate, if_pos hek, if_neg hev] at hj
        rcases Option.map_eq_some'.mp hj with ⟨j2, hj2, rfl⟩
        rcases ih j2 hj2 with ⟨hlt, f, hf, hfk, hfv⟩
        exact ⟨by simpa using hlt, f, by simpa using hf, hfk, hfv⟩
    · rw [flatLocate, if_neg hek] at hj
      exact absurd hj (by simp)

omit [LinearOrder K] [LinearOrder V] in
/-- Erasing at the offset `flatLocate` returns erases the first value
match. -/
theorem eraseIdx_flatLocate [DecidableEq K] [DecidableEq V] (k : K) (v : V) :
    ∀ (xs : List (K × V)) (j : Nat), flatLocate k v xs = some j →
      xs.eraseIdx j = xs.eraseP (fun e => decide (e.2 = v)) := by
  intro xs
  induction xs with
  | nil => simp [flatLocate]
  | cons e es ih =>
    intro j hj
    by_cases hek : e.1 = k
    · by_cases hev : e.2 = v
      · rw [flatLocate, if_pos hek, if_pos hev] at hj
        have : j = 0 := by simpa using hj.symm
        subst this
        rw [List.eraseIdx_cons_zero, List.eraseP_cons_of_pos (by simpa using hev)]
      · rw [flatLocate, if_pos hek, if_neg hev] at hj
        rcases Option.map_eq_some'.mp hj with ⟨j2, hj2, rfl⟩
        rw [List.eraseIdx_cons_succ, List.eraseP_cons_of_neg (by simpa using hev),
          ih j2 hj2]
    · rw [flatLocate, if_neg hek] at hj
      exact absurd hj (by simp)

omit [LinearOrder K] [LinearOrder V] in
/-- Deleting at a valid `(chunk, offset)` position erases the entry at
the corresponding global rank of the flattened sequence. -/
theorem deleteAt_flatten :
    ∀ (chunks : List (List (K × V))) (p i : Nat),
      i < (chunks.getD p []).length →
      (deleteAt chunks p i).flatten = chunks.flatten.eraseIdx (loc chunks p i) := by
  intro chunks
  induction chunks with
  | nil =>
    intro p i hi
    simp at hi
  | cons c cs ih =>
    intro p i hi
    cases p with
    | zero =>
      have hic : i < c.length := by simpa using hi
      rw [deleteAt]
      have hloc : loc (c :: cs) 0 i = i := by simp [loc]
      rw [hloc]
      simp only [List.flatten_cons]
      rw [List.eraseIdx_append_of_lt_length hic]
      by_cases hemp : (c.eraseIdx i).isEmpty
      · simp only [if_pos hemp]
        have : c.eraseIdx i = [] := by simpa [List.isEmpty_iff] using hemp
        rw [this]
        simp
      · simp only [if_neg hemp]
        simp
    | succ p2 =>
      have hi2 : i < (cs.getD p2 []).length := by simpa using hi
      rw [deleteAt]
      have hloc : loc (c :: cs) (p2 + 1) i = c.length + loc cs p2 i := by
        simp [loc, List.take_succ_cons, Nat.add_assoc]
      rw [hloc]
      simp only [List.flatten_cons]
      rw [List.eraseIdx_append_of_length_le (by omega)]
      rw [ih p2 i hi2]
      congr 1
      congr 1
      omega

omit [LinearOrder K] [LinearOrder V] in
/-- Positional deletion keeps every chunk non-empty. -/
theorem deleteAt_ne_nil :
    ∀ (chunks : List (List (K × V))) (p i : Nat),
      (∀ c ∈ chunks, c ≠ []) → ∀ c ∈ deleteAt chunks p i, c ≠ [] := by
  intro chunks
  induction chunks with
  | nil =>
    intro p i h c hc
    simp [deleteAt] at hc
  | cons c0 cs ih =>
    intro p i h c hc
    cases p with
    | zero =>
      rw [deleteAt] at hc
      by_cases hemp : ((c0.eraseIdx i).isEmpty)
      · rw [if_pos hemp] at hc
        exact h c (List.mem_cons_of_mem c0 hc)
      · rw [if_neg hemp] at hc
        rcases List.mem_cons.mp hc with rfl | hc2
        · simpa [List.isEmpty_iff] using hemp
        · exact h c (List.mem_cons_of_mem c0 hc2)
    | succ p2 =>
      rw [deleteAt] at hc
      rcases List.mem_cons.mp hc with rfl | hc2
      · exact h c (List.mem_cons_self c cs)
      · exact ih p2 i (fun d hd => h d (List.mem_cons_of_mem c0 hd)) c hc2

/-- The global entry order implies the key order, in either mode. -/
theorem sorted_keyLe_of_entryLe {b : Bool} {l : List (K × V)}
    (h : List.Sorted (entryLe b) l) : List.Sorted keyLe l := by
  cases b
  · simpa [entryLe] using h
  · have h2 : List.Sorted kvLe l := by simpa [entryLe] using h
    refine h2.imp ?_
    intro e f hef
    unfold keyLe
    unfold kvLe at hef
    rcases hef with hef | hef
    · exact le_of_lt hef
    · exact le_of_eq hef.1

/-! ### Characterizations of the public operations -/

theorem mem_values (s : SLWK K V) (v : V) :
    v ∈ values s ↔ ∃ e ∈ flat s, e.2 = v := by
  simp [values, List.mem_map]

/-- Under key consistency, an entry holding value `v` is exactly the
probe entry. -/
theorem entry_eq_probe {s : SLWK K V} (hkc : KeyConsistent s) {v : V} {e : K × V}
    (he : e ∈ flat s) (hev : e.2 = v) : e = (s.key v, v) := by
  have hk := hkc e he
  obtain ⟨e1, e2⟩ := e
  simp only at hev hk
  subst hev
  subst hk
  rfl

/-- When every stored key is below the query key, the queried value is
absent (given key consistency). -/
theorem not_mem_of_all_keys_lt {s : SLWK K V} (hkc : KeyConsistent s) {v : V}
    (hall : ∀ e ∈ flat s, e.1 < s.key v) : v ∉ values s := by
  intro hv
  rcases (mem_values s v).mp hv with ⟨e, he, hev⟩
  have h2 := hall e he
  rw [hkc e he, hev] at h2
  exact lt_irrefl _ h2

/-- `__contains__` returns, without raising, whether some stored
entry's value equals the argument. -/
theorem contains_spec (s : SLWK K V) (v : V)
    (hinv : EngineInv s) (hkc : KeyConsistent s) :
    contains s v = .ok (decide (v ∈ values s)) := by
  rcases hinv with ⟨hne, hsort⟩
  have hks : List.Sorted keyLe (flat s) := sorted_keyLe_of_entryLe hsort
  by_cases hord : s.ordered
  · have hiff : ((s.key v, v) ∈ flat s) ↔ v ∈ values s := by
      constructor
      · intro h
        exact (mem_values s v).mpr ⟨_, h, rfl⟩
      · intro h
        rcases (mem_values s v).mp h with ⟨e, he, hev⟩
        rw [← entry_eq_probe hkc he hev]
        exact he
    simp only [contains, if_pos hord]
    rw [decide_eq_decide.mpr hiff]
  · simp only [contains, if_neg hord]
    by_cases hch : s.chunks = []
    · rw [if_pos hch]
      have hv : values s = [] := by simp [values, flat, hch]
      simp [hv]
    · rw [if_neg hch]
      by_cases hpos : bisectLeftK (s.key v) (maxes s.chunks) = (maxes s.chunks).length
      · rw [if_pos hpos]
        have hall := bisect_exhausted (s.key v) hne hks hpos
        have hnm : v ∉ values s := not_mem_of_all_keys_lt hkc hall
        simp [hnm]
      · rw [if_neg hpos]
        have hposlt : bisectLeftK (s.key v) (maxes s.chunks) < (maxes s.chunks).length :=
          lt_of_le_of_ne ((List.takeWhile_sublist _).length_le) hpos
        obtain ⟨h1, h2, h3, h4⟩ :=
          bisect_entry (s.key v) s.chunks hne hks _ rfl hposlt _ rfl
        rw [if_pos h2]
        rw [scanContains_eq (s.key v) v _ _
          (fun c hc => hne c (List.mem_of_mem_drop hc))]
        rw [h3, run_eq_filter (s.key v) (l := s.chunks.flatten) hks]
        congr 1
        rw [Bool.eq_iff_iff, List.any_filter, List.any_eq_true, decide_eq_true_eq]
        constructor
        · rintro ⟨e, he, hb⟩
          simp only [Bool.and_eq_true, decide_eq_true_eq] at hb
          exact (mem_values s v).mpr ⟨e, he, hb.2⟩
        · intro hv
          rcases (mem_values s v).mp hv with ⟨e, he, hev⟩
          refine ⟨e, he, ?_⟩
          simp only [Bool.and_eq_true, decide_eq_true_eq]
          exact ⟨by rw [hkc e he, hev], hev⟩

/-- `count` returns, without raising, the number of stored entries
whose value equals the argument. -/
theorem count_spec (s : SLWK K V) (v : V)
    (hinv : EngineInv s) (hkc : KeyConsistent s) :
    count s v = .ok ((values s).count v) := by
  rcases hinv with ⟨hne, hsort⟩
  have hks : List.Sorted keyLe (flat s) := sorted_keyLe_of_entryLe hsort
  have hcv : (values s).count v = (flat s).countP (fun e => decide (e.2 = v)) := by
    unfold values
    rw [List.count_eq_countP, List.countP_map]
    apply List.countP_congr
    intro e he
    simp [Function.comp]
  by_cases hord : s.ordered
  · simp only [count, if_pos hord]
    congr 1
    rw [hcv]
    apply List.countP_congr
    intro e he
    simp only [decide_eq_true_eq]
    constructor
    · intro h
      rw [h]
    · intro h
      exact entry_eq_probe hkc he h
  · simp only [count, if_neg hord]
    by_cases hch : s.chunks = []
    · rw [if_pos hch]
      have hv : values s = [] := by simp [values, flat, hch]
      rw [hv, List.count_nil]
    · rw [if_neg hch]
      by_cases hpos : bisectLeftK (s.key v) (maxes s.chunks) = (maxes s.chunks).length
      · rw [if_pos hpos]
        have hall := bisect_exhausted (s.key v) hne hks hpos
        have hz : (values s).count v = 0 := by
          rw [List.count_eq_zero]
          exact not_mem_of_all_keys_lt hkc hall
        rw [hz]
      · rw [if_neg hpos]
        have hposlt : bisectLeftK (s.key v) (maxes s.chunks) < (maxes s.chunks).length :=
          lt_of_le_of_ne ((List.takeWhile_sublist _).length_le) hpos
        obtain ⟨h1, h2, h3, h4⟩ :=
          bisect_entry (s.key v) s.chunks hne hks _ rfl hposlt _ rfl
        rw [if_pos h2]
        rw [scanCount_eq (s.key v) v _ _ 0
          (fun c hc => hne c (List.mem_of_mem_drop hc))]
        rw [h3, run_eq_filter (s.key v) (l := s.chunks.flatten) hks]
        congr 1
        rw [Nat.zero_add, hcv, List.countP_filter]
        apply List.countP_congr
        intro e he
        simp only [Bool.and_eq_true, decide_eq_true_eq]
        constructor
        · intro h
          exact h.1
        · intro h
          exact ⟨h, by rw [hkc e he, h]⟩

omit [LinearOrder K] [LinearOrder V] in
theorem ofFlat_flatten (l : List (K × V)) : (ofFlat l).flatten = l := by
  unfold ofFlat
  by_cases h : l.isEmpty
  · have : l = [] := by simpa [List.isEmpty_iff] using h
    simp [h, this]
  · simp [h]

omit [LinearOrder K] [LinearOrder V] in
theorem ofFlat_ne_nil (l : List (K × V)) : ∀ c ∈ ofFlat l, c ≠ [] := by
  unfold ofFlat
  by_cases h : l.isEmpty
  · simp [h]
  · intro c hc
    rw [if_neg h] at hc
    rcases List.mem_cons.mp hc with rfl | h2
    · simpa [List.isEmpty_iff] using h
    · simp at h2

omit [LinearOrder K] [LinearOrder V] in
/-- `eraseP` only looks at the predicate's values on the list's
members. -/
theorem eraseP_congr {α : Type} {p q : α → Bool} :
    ∀ {l : List α}, (∀ a ∈ l, p a = q a) → l.eraseP p = l.eraseP q := by
  intro l
  induction l with
  | nil => intro _; rfl
  | cons a t ih =>
    intro h
    have ha := h a (List.mem_cons_self a t)
    by_cases hp : p a
    · rw [List.eraseP_cons_of_pos hp, List.eraseP_cons_of_pos (ha ▸ hp)]
    · rw [List.eraseP_cons_of_neg hp, List.eraseP_cons_of_neg (by rw [← ha]; exact hp)]
      rw [ih (fun b hb => h b (List.mem_cons_of_mem a hb))]

/-- Shared outcome analysis for the `discard`/`remove` locate scan in
key-only mode: either the value is absent and the scan reports no
match, or it is present and the scan reports a valid position whose
deletion erases exactly the first value match from the flattened
sequence. -/
theorem locate_outcome (s : SLWK K V) (v : V)
    (hne : ∀ c ∈ s.chunks, c ≠ []) (hks : List.Sorted keyLe (flat s))
    (hkc : KeyConsistent s)
    (hposlt : bisectLeftK (s.key v) (maxes s.chunks) < (maxes s.chunks).length) :
    ∀ pos, pos = bisectLeftK (s.key v) (maxes s.chunks) →
    ∀ idx, idx = bisectLeftK (s.key v) (s.chunks.getD pos []) →
    (v ∉ values s ∧
      scanLocate (s.key v) v ((s.chunks.getD pos []).drop idx)
        (s.chunks.drop (pos + 1)) pos idx = .ok none) ∨
    (v ∈ values s ∧ ∃ p i,
      scanLocate (s.key v) v ((s.chunks.getD pos []).drop idx)
        (s.chunks.drop (pos + 1)) pos idx = .ok (some (p, i)) ∧
      i < (s.chunks.getD p []).length ∧
      (deleteAt s.chunks p i).flatten
        = (flat s).eraseP (fun e => decide (e.2 = v)) ∧
      (deleteAt s.chunks p i).flatten.length + 1 = (flat s).length) := by
  intro pos hpos idx hidx
  obtain ⟨h1, h2, h3, h4⟩ :=
    bisect_entry (s.key v) s.chunks hne hks pos hpos
      (by rw [hpos]; exact hposlt) idx hidx
  have hfl : s.chunks.flatten = flat s := rfl
  rw [hfl] at h3 h4
  obtain ⟨ihn, ihs⟩ :=
    scanLocate_eq (s.key v) v s.chunks hne
      ((s.chunks.getD pos []).drop idx) (s.chunks.drop (pos + 1)) pos idx
      h1 rfl rfl (le_of_lt h2)
  have hq : ∀ e ∈ (flat s).takeWhile (fun e => decide (e.1 < s.key v)),
      (fun e : K × V => decide (e.2 = v)) e = false := by
    intro e he
    have hlt := List.mem_takeWhile_imp he
    simp only [decide_eq_true_eq] at hlt
    simp only [decide_eq_false_iff_not]
    intro hev
    have hmem : e ∈ flat s := (List.takeWhile_sublist _).subset he
    rw [hkc e hmem, hev] at hlt
    exact lt_irrefl _ hlt
  cases hloc : flatLocate (s.key v) v
      ((s.chunks.getD pos []).drop idx ++ (s.chunks.drop (pos + 1)).flatten) with
  | none =>
    left
    refine ⟨?_, ihn hloc⟩
    rw [h3] at hloc
    have hrun := (flatLocate_eq_none_iff _ _ _).mp hloc
    rw [run_eq_filter (s.key v) (l := flat s) hks] at hrun
    intro hv
    rcases (mem_values s v).mp hv with ⟨e, he, hev⟩
    refine hrun e ?_ hev
    rw [List.mem_filter]
    exact ⟨he, by simpa using by rw [hkc e he, hev]⟩
  | some j =>
    right
    rcases ihs j hloc with ⟨p, i, hsc, hp, hi, hl⟩
    rw [h3] at hloc
    obtain ⟨hjlt, e, hej, hek, hev⟩ := flatLocate_eq_some (s.key v) v _ j hloc
    have hvmem : v ∈ values s := by
      refine (mem_values s v).mpr ⟨e, ?_, hev⟩
      exact (List.dropWhile_sublist _).subset (List.getElem?_mem hej)
    have hLlen : loc s.chunks p i
        = ((flat s).takeWhile (fun e => decide (e.1 < s.key v))).length + j := by
      rw [hl, h4]
    have hlocLt : loc s.chunks p i < (flat s).length := by
      rw [hLlen]
      have hsplit := congrArg List.length
        (List.takeWhile_append_dropWhile (fun e : K × V => decide (e.1 < s.key v)) (flat s))
      rw [List.length_append] at hsplit
      omega
    have hflatdel : (deleteAt s.chunks p i).flatten
        = (flat s).eraseP (fun e => decide (e.2 = v)) := by
      rw [deleteAt_flatten s.chunks p i hi, hfl]
      have hflat : flat s
          = (flat s).takeWhile (fun e => decide (e.1 < s.key v))
            ++ (flat s).dropWhile (fun e => decide (e.1 < s.key v)) :=
        (List.takeWhile_append_dropWhile _ _).symm
      calc (flat s).eraseIdx (loc s.chunks p i)
          = ((flat s).takeWhile (fun e => decide (e.1 < s.key v))
              ++ (flat s).dropWhile (fun e => decide (e.1 < s.key v))).eraseIdx
              (loc s.chunks p i) := by rw [← hflat]
        _ = (flat s).takeWhile (fun e => decide (e.1 < s.key v))
              ++ ((flat s).dropWhile (fun e => decide (e.1 < s.key v))).eraseIdx j := by
              rw [List.eraseIdx_append_of_length_le (by rw [hLlen]; omega)]
              congr 1
              rw [hLlen]
              congr 1
              omega
        _ = (flat s).takeWhile (fun e => decide (e.1 < s.key v))
              ++ ((flat s).dropWhile (fun e => decide (e.1 < s.key v))).eraseP
                (fun e => decide (e.2 = v)) := by
              rw [eraseIdx_flatLocate (s.key v) v _ j hloc]
        _ = (flat s).eraseP (fun e => decide (e.2 = v)) := by
              have hq2 : ∀ b ∈ (flat s).takeWhile (fun e => decide (e.1 < s.key v)),
                  ¬((fun e : K × V => decide (e.2 = v)) b = true) := by
                intro b hb
                have hb2 := hq b hb
                simp only [hb2]
                simp
              rw [← List.eraseP_append_right _ hq2, ← hflat]
    refine ⟨hvmem, p, i, hsc, hi, hflatdel, ?_⟩
    rw [deleteAt_flatten s.chunks p i hi, hfl, List.length_eraseIdx_of_lt hlocLt]
    omega

/-- Erasing the first value match at entry level is erasing the first
match at value level. -/
theorem values_eraseP {s t : SLWK K V} {v : V}
    (h : flat t = (flat s).eraseP (fun e => decide (e.2 = v))) :
    values t = (values s).eraseP (fun x => decide (x = v)) := by
  unfold values
  rw [h]
  have hcomp : ((fun x : V => decide (x = v)) ∘ Prod.snd : K × V → Bool)
      = fun e : K × V => decide (e.2 = v) := rfl
  rw [List.eraseP_map, hcomp]

/-- Under key consistency, the entry-level first-match predicate used
by the engine's remove-by-value agrees on stored entries with the
value-level one. -/
theorem eraseP_probe_eq {s : SLWK K V} (hkc : KeyConsistent s) (v : V) :
    (flat s).eraseP (fun f => decide (f = (s.key v, v)))
      = (flat s).eraseP (fun e => decide (e.2 = v)) := by
  apply eraseP_congr
  intro e he
  rw [decide_eq_decide]
  constructor
  · intro h
    rw [h]
  · intro h
    exact entry_eq_probe hkc he h

/-- The effect of the engine's remove-by-value when the probe entry is
present: the first value match disappears from the flattened
sequence. -/
theorem engineErase_spec (s : SLWK K V) (v : V) (hkc : KeyConsistent s)
    (hmem : (s.key v, v) ∈ flat s) :
    flat (engineErase s (s.key v, v)) = (flat s).eraseP (fun e => decide (e.2 = v)) := by
  unfold engineErase
  rw [if_pos hmem]
  show (ofFlat _).flatten = _
  rw [ofFlat_flatten, eraseP_probe_eq hkc v]

/-- Erasing the first value match shortens the list by one when the
value is present. -/
theorem length_eraseP_value {s : SLWK K V} {v : V}
    (hv : v ∈ values s) :
    ((flat s).eraseP (fun e => decide (e.2 = v))).length + 1 = (flat s).length := by
  rcases (mem_values s v).mp hv with ⟨e, he, hev⟩
  rw [List.length_eraseP_of_mem he (by simpa using hev)]
  have hpos : 0 < (flat s).length := List.length_pos_of_mem he
  omega

/-- `discard` leaves the state untouched when the value is absent and
erases exactly the first value match when present. -/
theorem discard_spec (s : SLWK K V) (v : V)
    (hinv : EngineInv s) (hkc : KeyConsistent s) :
    (v ∉ values s → discard s v = .ok s) ∧
    (v ∈ values s → ∃ t, discard s v = .ok t ∧
      flat t = (flat s).eraseP (fun e => decide (e.2 = v)) ∧
      values t = (values s).eraseP (fun x => decide (x = v)) ∧
      slen t + 1 = slen s ∧
      (∀ c ∈ t.chunks, c ≠ []) ∧ t.key = s.key ∧ t.ordered = s.ordered) := by
  rcases hinv with ⟨hne, hsort⟩
  have hks : List.Sorted keyLe (flat s) := sorted_keyLe_of_entryLe hsort
  by_cases hord : s.ordered
  · simp only [discard, if_pos hord]
    constructor
    · intro hv
      have hnm : (s.key v, v) ∉ flat s := by
        intro h
        exact hv ((mem_values s v).mpr ⟨_, h, rfl⟩)
      unfold engineErase
      rw [if_neg hnm]
    · intro hv
      rcases (mem_values s v).mp hv with ⟨e, he, hev⟩
      have hmem : (s.key v, v) ∈ flat s := by
        rw [← entry_eq_probe hkc he hev]
        exact he
      have hflatdel := engineErase_spec s v hkc hmem
      refine ⟨engineErase s (s.key v, v), rfl, hflatdel, values_eraseP hflatdel,
        ?_, ?_, ?_, ?_⟩
      · show (flat _).length + 1 = (flat s).length
        rw [hflatdel]
        exact length_eraseP_value hv
      · unfold engineErase
        rw [if_pos hmem]
        exact ofFlat_ne_nil _
      · unfold engineErase
        rw [if_pos hmem]
      · unfold engineErase
        rw [if_pos hmem]
  · simp only [discard, if_neg hord]
    by_cases hch : s.chunks = []
    · rw [if_pos hch]
      have hv : values s = [] := by simp [values, flat, hch]
      constructor
      · intro _
        rfl
      · intro hvin
        rw [hv] at hvin
        simp at hvin
    · rw [if_neg hch]
      by_cases hpos : bisectLeftK (s.key v) (maxes s.chunks) = (maxes s.chunks).length
      · rw [if_pos hpos]
        have hnm := not_mem_of_all_keys_lt hkc (bisect_exhausted (s.key v) hne hks hpos)
        exact ⟨fun _ => rfl, fun hvin => absurd hvin hnm⟩
      · rw [if_neg hpos]
        have hposlt : bisectLeftK (s.key v) (maxes s.chunks) < (maxes s.chunks).length :=
          lt_of_le_of_ne ((List.takeWhile_sublist _).length_le) hpos
        obtain ⟨h1, h2, _, _⟩ :=
          bisect_entry (s.key v) s.chunks hne hks _ rfl hposlt _ rfl
        rw [if_pos h2]
        rcases locate_outcome s v hne hks hkc hposlt _ rfl _ rfl with
          ⟨hnm, hscan⟩ | ⟨hvin, p, i, hscan, hi, hdel, hlen⟩
        · rw [hscan]
          exact ⟨fun _ => rfl, fun hvin => absurd hvin hnm⟩
        · rw [hscan]
          constructor
          · intro hnv
            exact absurd hvin hnv
          · intro _
            refine ⟨{ s with chunks := deleteAt s.chunks p i }, rfl, hdel,
              values_eraseP hdel, ?_, ?_, rfl, rfl⟩
            · show (deleteAt s.chunks p i).flatten.length + 1 = (flat s).length
              exact hlen
            · exact deleteAt_ne_nil s.chunks p i hne

/-- `remove` raises `ValueError` exactly when the value is absent and
otherwise erases exactly the first value match. -/
theorem remove_spec (s : SLWK K V) (v : V)
    (hinv : EngineInv s) (hkc : KeyConsistent s) :
    (remove s v = .error .valueError ↔ v ∉ values s) ∧
    (v ∈ values s → ∃ t, remove s v = .ok t ∧
      flat t = (flat s).eraseP (fun e => decide (e.2 = v)) ∧
      values t = (values s).eraseP (fun x => decide (x = v)) ∧
      slen t + 1 = slen s ∧
      (∀ c ∈ t.chunks, c ≠ []) ∧ t.key = s.key ∧ t.ordered = s.ordered) := by
  rcases hinv with ⟨hne, hsort⟩
  have hks : List.Sorted keyLe (flat s) := sorted_keyLe_of_entryLe hsort
  by_cases hord : s.ordered
  · simp only [remove, if_pos hord]
    have hmemiff : ((s.key v, v) ∈ flat s) ↔ v ∈ values s := by
      constructor
      · intro h
        exact (mem_values s v).mpr ⟨_, h, rfl⟩
      · intro h
        rcases (mem_values s v).mp h with ⟨e, he, hev⟩
        rw [← entry_eq_probe hkc he hev]
        exact he
    by_cases hmem : (s.key v, v) ∈ flat s
    · rw [if_pos hmem]
      have hvin := hmemiff.mp hmem
      have hflatdel := engineErase_spec s v hkc hmem
      constructor
      · simp [hvin]
      · intro _
        refine ⟨engineErase s (s.key v, v), rfl, hflatdel, values_eraseP hflatdel,
          ?_, ?_, ?_, ?_⟩
        · show (flat _).length + 1 = (flat s).length
          rw [hflatdel]
          exact length_eraseP_value hvin
        · unfold engineErase
          rw [if_pos hmem]
          exact ofFlat_ne_nil _
        · unfold engineErase
          rw [if_pos hmem]
        · unfold engineErase
          rw [if_pos hmem]
    · rw [if_neg hmem]
      have hnv : v ∉ values s := fun h => hmem (hmemiff.mpr h)
      exact ⟨by simp [hnv], fun hvin => absurd hvin hnv⟩
  · simp only [remove, if_neg hord]
    by_cases hch : s.chunks = []
    · rw [if_pos hch]
      have hv : values s = [] := by simp [values, flat, hch]
      constructor
      · simp [hv]
      · intro hvin
        rw [hv] at hvin
        simp at hvin
    · rw [if_neg hch]
      by_cases hpos : bisectLeftK (s.key v) (maxes s.chunks) = (maxes s.chunks).length
      · rw [if_pos hpos]
        have hnm := not_mem_of_all_keys_lt hkc (bisect_exhausted (s.key v) hne hks hpos)
        exact ⟨by simp [hnm], fun hvin => absurd hvin hnm⟩
      · rw [if_neg hpos]
        have hposlt : bisectLeftK (s.key v) (maxes s.chunks) < (maxes s.chunks).length :=
          lt_of_le_of_ne ((List.takeWhile_sublist _).length_le) hpos
        obtain ⟨h1, h2, _, _⟩ :=
          bisect_entry (s.key v) s.chunks hne hks _ rfl hposlt _ rfl
        rw [if_pos h2]
        rcases locate_outcome s v hne hks hkc hposlt _ rfl _ rfl with
          ⟨hnm, hscan⟩ | ⟨hvin, p, i, hscan, hi, hdel, hlen⟩
        · rw [hscan]
          exact ⟨by simp [hnm], fun hvin => absurd hvin hnm⟩
        · rw [hscan]
          constructor
          · simp [hvin]
          · intro _
            refine ⟨{ s with chunks := deleteAt s.chunks p i }, rfl, hdel,
              values_eraseP hdel, ?_, ?_, rfl, rfl⟩
            · show (deleteAt s.chunks p i).flatten.length + 1 = (flat s).length
              exact hlen
            · exact deleteAt_ne_nil s.chunks p i hne

/-! ### The index window search -/

/-- Rank `q` is an acceptable answer for `index`: inside the
`[st, sp)` window and holding value `v`. -/
def inWinMatch (l : List (K × V)) (v : V) (st sp : Int) (q : Nat) : Prop :=
  st ≤ (q : Int) ∧ (q : Int) < sp ∧ (l.map Prod.snd)[q]? = some v

omit [LinearOrder V] in
/-- The reference index loop, characterized: it returns the smallest
in-window rank holding the value, and `ValueError` exactly when no
in-window rank holds it. -/
theorem flatIndexLoop_spec [DecidableEq K] [DecidableEq V] (k : K) (v : V) (st sp : Int)
    (l : List (K × V)) (hsort : List.Sorted keyLe l)
    (hkc : ∀ e ∈ l, e.2 = v → e.1 = k) :
    ∀ (xs : List (K × V)) (r : Nat),
    xs = l.drop r →
    (∀ e ∈ xs, k ≤ e.1) →
    (∀ q, q < r → ¬inWinMatch l v st sp q) →
    ((∀ m, flatIndexLoop k v st sp xs r = .ok m ↔
        (inWinMatch l v st sp m ∧ ∀ q, q < m → ¬inWinMatch l v st sp q)) ∧
     (flatIndexLoop k v st sp xs r = .error .valueError ↔
        ¬∃ q, inWinMatch l v st sp q)) := by
  intro xs
  induction xs with
  | nil =>
    intro r hx hkge hbelow
    have hnone : ∀ q, ¬inWinMatch l v st sp q := by
      intro q hq
      obtain ⟨hq1, hq2, hm⟩ := hq
      have hqlt : q < l.length := by
        rcases List.getElem?_eq_some_iff.mp hm with ⟨hlt, _⟩
        simpa using hlt
      have hlen := congrArg List.length hx
      simp only [List.length_nil, List.length_drop] at hlen
      exact hbelow q (by omega) ⟨hq1, hq2, hm⟩
    constructor
    · intro m
      rw [flatIndexLoop]
      constructor
      · intro h
        exact absurd h (by simp)
      · rintro ⟨hm, _⟩
        exact absurd hm (hnone m)
    · rw [flatIndexLoop]
      simp only [true_iff]
      rintro ⟨q, hq⟩
      exact hnone q hq
  | cons e es ih =>
    intro r hx hkge hbelow
    have hre : l[r]? = some e := by
      rw [← List.head?_drop, ← hx]
      rfl
    have hes : es = l.drop (r + 1) := (drop_succ_of_drop_cons hx.symm).symm
    have hmapr : (l.map Prod.snd)[r]? = some e.2 := by
      rw [List.getElem?_map, hre]
      rfl
    have hkes : ∀ f ∈ es, k ≤ f.1 := fun f hf =>
      hkge f (List.mem_cons_of_mem e hf)
    by_cases hek : e.1 = k
    · by_cases hev : e.2 = v
      · by_cases hwin : st ≤ (r : Int) ∧ (r : Int) < sp
        · -- accepted: the loop returns r
          have hwm : inWinMatch l v st sp r := ⟨hwin.1, hwin.2, by rw [hmapr, hev]⟩
          constructor
          · intro m
            rw [flatIndexLoop, if_pos hek, if_pos hev, if_pos hwin]
            constructor
            · intro h
              have hmr : m = r := by simpa using h.symm
              subst hmr
              exact ⟨hwm, hbelow⟩
            · rintro ⟨hm, hmin⟩
              have hmr : m = r := by
                rcases lt_trichotomy m r with h | h | h
                · exact absurd hm (hbelow m h)
                · exact h
                · exact absurd hwm (hmin r h)
              rw [hmr]
          · rw [flatIndexLoop, if_pos hek, if_pos hev, if_pos hwin]
            constructor
            · intro h
              exact absurd h (by simp)
            · intro h
              exact absurd ⟨r, hwm⟩ h
        · -- match out of window: skipped
          have hb2 : ∀ q, q < r + 1 → ¬inWinMatch l v st sp q := by
            intro q hq
            rcases Nat.lt_succ_iff_lt_or_eq.mp hq with h | rfl
            · exact hbelow q h
            · rintro ⟨hw1, hw2, _⟩
              exact hwin ⟨hw1, hw2⟩
          have := ih (r + 1) hes hkes hb2
          rw [flatIndexLoop, if_pos hek, if_pos hev, if_neg hwin]
          exact this
      · -- value mismatch: skipped
        have hb2 : ∀ q, q < r + 1 → ¬inWinMatch l v st sp q := by
          intro q hq
          rcases Nat.lt_succ_iff_lt_or_eq.mp hq with h | rfl
          · exact hbelow q h
          · rintro ⟨_, _, hm⟩
            rw [hmapr] at hm
            exact hev (by simpa using hm)
        have := ih (r + 1) hes hkes hb2
        rw [flatIndexLoop, if_pos hek, if_neg hev]
        exact this
    · -- the run ended: no acceptable rank exists at all
      have hnone : ∀ q, ¬inWinMatch l v st sp q := by
        intro q hq
        obtain ⟨hq1, hq2, hm⟩ := hq
        have hm2 := hm
        rw [List.getElem?_map] at hm2
        rcases Option.map_eq_some'.mp hm2 with ⟨f, hf, hfv⟩
        rcases lt_or_le q r with h | h
        · exact hbelow q h ⟨hq1, hq2, hm⟩
        · have hfk : f.1 = k := hkc f (List.getElem?_mem hf) hfv
          rcases Nat.eq_or_lt_of_le h with rfl | h2
          · rw [hre] at hf
            have : e = f := by simpa using hf
            exact hek (this ▸ hfk)
          · rcases List.getElem?_eq_some_iff.mp hre with ⟨hrlt, hrget⟩
            rcases List.getElem?_eq_some_iff.mp hf with ⟨hqlt, hqget⟩
            have hrel : keyLe (l.get ⟨r, hrlt⟩) (l.get ⟨q, hqlt⟩) :=
              List.pairwise_iff_getElem.mp hsort r q hrlt hqlt h2
            simp only [List.get_eq_getElem] at hrel
            rw [hrget, hqget] at hrel
            have hke : k ≤ e.1 := hkge e (List.mem_cons_self e es)
            have : e.1 ≤ k := by
              unfold keyLe at hrel
              rw [hfk] at hrel
              exact hrel
            exact hek (le_antisymm this hke)
      constructor
      · intro m
        rw [flatIndexLoop, if_neg hek]
        constructor
        · intro h
          exact absurd h (by simp)
        · rintro ⟨hm, _⟩
          exact absurd hm (hnone m)
      · rw [flatIndexLoop, if_neg hek]
        simp only [true_iff]
        rintro ⟨q, hq⟩
        exact hnone q hq

omit [LinearOrder K] [LinearOrder V] in
theorem findIdx_result {α : Type} (p : α → Bool) :
    ∀ (xs : List α), xs.findIdx p < xs.length →
      (∃ x, xs[xs.findIdx p]? = some x ∧ p x = true) ∧
      ∀ i, i < xs.findIdx p → ∀ x, xs[i]? = some x → p x = false := by
  intro xs
  induction xs with
  | nil => simp
  | cons a t ih =>
    intro hlt
    rw [List.findIdx_cons] at hlt ⊢
    by_cases hp : p a
    · simp only [hp, cond_true] at hlt ⊢
      exact ⟨⟨a, by simp, hp⟩, by omega⟩
    · simp only [hp, cond_false] at hlt ⊢
      have hlt2 : t.findIdx p < t.length := by simpa using hlt
      rcases ih hlt2 with ⟨⟨x, hx, hpx⟩, hmin⟩
      refine ⟨⟨x, by simpa using hx, hpx⟩, ?_⟩
      intro i hi y hy
      cases i with
      | zero =>
        have hya : a = y := by simpa using hy
        rw [← hya]
        simpa using hp
      | succ i2 =>
        exact hmin i2 (by omega) y (by simpa using hy)

omit [LinearOrder K] [LinearOrder V] in
theorem findIdx_ge_length {α : Type} (p : α → Bool) :
    ∀ (xs : List α), xs.length ≤ xs.findIdx p → ∀ x ∈ xs, p x = false := by
  intro xs
  induction xs with
  | nil => simp
  | cons a t ih =>
    intro hge x hx
    rw [List.findIdx_cons] at hge
    by_cases hp : p a
    · simp [hp] at hge
    · simp only [hp, cond_false, List.length_cons] at hge
      rcases List.mem_cons.mp hx with rfl | hx2
      · simpa using hp
      · exact ih (by omega) x hx2

omit [LinearOrder V] in
/-- Every entry past the bisect point has key at least the query
key (on a sorted list). -/
theorem keys_ge_of_dropWhile (k : K) {l : List (K × V)} (hs : List.Sorted keyLe l) :
    ∀ e ∈ l.dropWhile (fun e => decide (e.1 < k)), k ≤ e.1 := by
  induction l with
  | nil => simp
  | cons a t ih =>
    rcases List.sorted_cons.mp hs with ⟨ha, ht⟩
    by_cases hlt : a.1 < k
    · rw [List.dropWhile_cons_of_pos (by simpa using hlt)]
      exact ih ht
    · rw [List.dropWhile_cons_of_neg (by simpa using hlt)]
      intro e he
      rcases List.mem_cons.mp he with rfl | he2
      · exact le_of_not_lt hlt
      · exact le_trans (le_of_not_lt hlt) (ha e he2)

omit [LinearOrder K] [LinearOrder V] in
theorem clampStart_nonneg (n : Nat) (a : Option Int) : 0 ≤ clampStart n a := by
  unfold clampStart
  cases a <;> dsimp only <;> split_ifs <;> omega

omit [LinearOrder K] [LinearOrder V] in
theorem clampStop_le (n : Nat) (b : Option Int) : clampStop n b ≤ (n : Int) := by
  unfold clampStop
  cases b <;> dsimp only <;> split_ifs <;> omega

/-- The engine's `index`, characterized against the in-window match
predicate (orderable-value delegation path). -/
theorem engineIndex_spec (s : SLWK K V) (v : V) (a b : Option Int)
    (hkc : KeyConsistent s) :
    (∀ m, engineIndex (flat s) (s.key v, v) a b = .ok m ↔
      (inWinMatch (flat s) v (clampStart (slen s) a) (clampStop (slen s) b) m ∧
       ∀ q, q < m → ¬inWinMatch (flat s) v (clampStart (slen s) a) (clampStop (slen s) b) q)) ∧
    (engineIndex (flat s) (s.key v, v) a b = .error .valueError ↔
      ¬∃ q, inWinMatch (flat s) v (clampStart (slen s) a) (clampStop (slen s) b) q) := by
  have hrank : ∀ q : Nat,
      (((flat s).map Prod.snd)[q]? = some v) ↔ ((flat s)[q]? = some (s.key v, v)) := by
    intro q
    rw [List.getElem?_map]
    constructor
    · intro h
      rcases Option.map_eq_some'.mp h with ⟨f, hf, hfv⟩
      rw [hf, entry_eq_probe hkc (List.getElem?_mem hf) hfv]
    · intro h
      rw [h]
      rfl
  have hst0 : 0 ≤ clampStart (slen s) a := clampStart_nonneg _ _
  have hsple : clampStop (slen s) b ≤ ((slen s : Nat) : Int) := clampStop_le _ _
  simp only [slen] at hst0 hsple ⊢
  simp only [engineIndex]
  set L := flat s with hL
  set st := clampStart L.length a with hst
  set sp := clampStop L.length b with hsp
  by_cases hwin : sp ≤ st
  · rw [if_pos hwin]
    have hnone : ∀ q, ¬inWinMatch L v st sp q := by
      rintro q ⟨h1, h2, _⟩
      omega
    refine ⟨?_, ?_⟩
    · intro m
      constructor
      · intro h
        exact absurd h (by simp)
      · rintro ⟨hm, _⟩
        exact absurd hm (hnone m)
    · constructor
      · rintro _ ⟨q, hq⟩
        exact hnone q hq
      · intro _
        rfl
  · rw [if_neg hwin]
    have hstsp : st < sp := by omega
    have hsp0 : (0 : Int) ≤ sp := by omega
    have hstN : ((st.toNat : Nat) : Int) = st := Int.toNat_of_nonneg hst0
    have hspN : ((sp.toNat : Nat) : Int) = sp := Int.toNat_of_nonneg hsp0
    set stN := st.toNat with hstNd
    set spN := sp.toNat with hspNd
    set w := (L.drop stN).take (spN - stN) with hw
    set j := w.findIdx (fun f => decide (f = (s.key v, v))) with hjd
    have hwlen : w.length = min (spN - stN) (L.length - stN) := by
      rw [hw, List.length_take, List.length_drop]
    have hacc : ∀ i, i < w.length → w[i]? = L[stN + i]? := by
      intro i hi
      rw [hwlen] at hi
      rw [hw, List.getElem?_take, if_pos (by omega), List.getElem?_drop]
    by_cases hjlt : j < w.length
    · rw [if_pos hjlt]
      rcases findIdx_result _ w hjlt with ⟨⟨x, hx, hpx⟩, hmin⟩
      rw [← hjd] at hx hmin
      have hxe : x = (s.key v, v) := by simpa using hpx
      have hLm : L[stN + j]? = some (s.key v, v) := by
        rw [← hacc j hjlt, hx, hxe]
      have hjw : j < spN - stN := by
        rw [hwlen] at hjlt
        omega
      have hP : inWinMatch L v st sp (stN + j) := by
        refine ⟨by omega, by omega, (hrank _).mpr hLm⟩
      have hnotbelow : ∀ q, q < stN + j → ¬inWinMatch L v st sp q := by
        intro q hq
        rintro ⟨hq1, hq2, hqm⟩
        rcases lt_or_le q stN with hcase | hcase
        · omega
        · have hi : q - stN < j := by omega
          have hiw : q - stN < w.length := by omega
          have hwq : w[q - stN]? = L[q]? := by
            rw [hacc _ hiw]
            congr 1
            omega
          have hLq : L[q]? = some (s.key v, v) := (hrank q).mp hqm
          have := hmin (q - stN) hi (s.key v, v) (by rw [hwq, hLq])
          simp at this
      refine ⟨?_, ?_⟩
      · intro m
        constructor
        · intro h
          have hm : stN + j = m := by simpa using h
          rw [← hm]
          exact ⟨hP, hnotbelow⟩
        · rintro ⟨hm, hmmin⟩
          have hmeq : m = stN + j := by
            rcases lt_trichotomy m (stN + j) with h | h | h
            · exact absurd hm (hnotbelow m h)
            · exact h
            · exact absurd hP (hmmin _ h)
          rw [hmeq]
      · constructor
        · intro h
          exact absurd h (by simp)
        · intro h
          exact absurd ⟨_, hP⟩ h
    · rw [if_neg hjlt]
      have hall := findIdx_ge_length (fun f => decide (f = (s.key v, v))) w
        (by rw [hjd] at hjlt; omega)
      have hnone : ∀ q, ¬inWinMatch L v st sp q := by
        intro q
        rintro ⟨hq1, hq2, hqm⟩
        have hLq : L[q]? = some (s.key v, v) := (hrank q).mp hqm
        have hqlen : q < L.length := by
          rcases List.getElem?_eq_some_iff.mp hLq with ⟨h, _⟩
          exact h
        have hqge : stN ≤ q := by omega
        have hqsp : q < spN := by omega
        have hiw : q - stN < w.length := by
          rw [hwlen]
          omega
        have hwq : w[q - stN]? = L[q]? := by
          rw [hacc _ hiw]
          congr 1
          omega
        have := hall (s.key v, v) (List.getElem?_mem (by rw [hwq]; exact hLq))
        simp at this
      refine ⟨?_, ?_⟩
      · intro m
        constructor
        · intro h
          exact absurd h (by simp)
        · rintro ⟨hm, _⟩
          exact absurd hm (hnone m)
      · constructor
        · rintro _ ⟨q, hq⟩
          exact hnone q hq
        · intro _
          rfl

/-- `index`, characterized: it returns the smallest in-window rank
holding the value and raises `ValueError` exactly when the clamped
window holds no occurrence (in particular whenever the window is empty
or inverted). -/
theorem index_spec (s : SLWK K V) (v : V) (a b : Option Int)
    (hinv : EngineInv s) (hkc : KeyConsistent s) :
    (∀ m, index s v a b = .ok m ↔
      (inWinMatch (flat s) v (clampStart (slen s) a) (clampStop (slen s) b) m ∧
       ∀ q, q < m → ¬inWinMatch (flat s) v (clampStart (slen s) a) (clampStop (slen s) b) q)) ∧
    (index s v a b = .error .valueError ↔
      ¬∃ q, inWinMatch (flat s) v (clampStart (slen s) a) (clampStop (slen s) b) q) := by
  rcases hinv with ⟨hne, hsort⟩
  have hks : List.Sorted keyLe (flat s) := sorted_keyLe_of_entryLe hsort
  by_cases hord : s.ordered
  · simp only [index, if_pos hord]
    exact engineIndex_spec s v a b hkc
  · simp only [index, if_neg hord]
    have hst0 := clampStart_nonneg (slen s) a
    have hsple := clampStop_le (slen s) b
    by_cases hwin : clampStop (slen s) b ≤ clampStart (slen s) a
    · rw [if_pos hwin]
      have hnone : ∀ q,
          ¬inWinMatch (flat s) v (clampStart (slen s) a) (clampStop (slen s) b) q := by
        rintro q ⟨h1, h2, _⟩
        omega
      refine ⟨?_, ?_⟩
      · intro m
        constructor
        · intro h
          exact absurd h (by simp)
        · rintro ⟨hm, _⟩
          exact absurd hm (hnone m)
      · constructor
        · rintro _ ⟨q, hq⟩
          exact hnone q hq
        · intro _
          rfl
    · rw [if_neg hwin]
      by_cases hpos : bisectLeftK (s.key v) (maxes s.chunks) = (maxes s.chunks).length
      · rw [if_pos hpos]
        have hall := bisect_exhausted (s.key v) hne hks hpos
        have hnone : ∀ q,
            ¬inWinMatch (flat s) v (clampStart (slen s) a) (clampStop (slen s) b) q := by
          rintro q ⟨_, _, hm⟩
          rw [List.getElem?_map] at hm
          rcases Option.map_eq_some'.mp hm with ⟨f, hf, hfv⟩
          have hmem := List.getElem?_mem hf
          have hflt := hall f hmem
          rw [hkc f hmem, hfv] at hflt
          exact lt_irrefl _ hflt
        refine ⟨?_, ?_⟩
        · intro m
          constructor
          · intro h
            exact absurd h (by simp)
          · rintro ⟨hm, _⟩
            exact absurd hm (hnone m)
        · constructor
          · rintro _ ⟨q, hq⟩
            exact hnone q hq
          · intro _
            rfl
      · rw [if_neg hpos]
        have hposlt : bisectLeftK (s.key v) (maxes s.chunks) < (maxes s.chunks).length :=
          lt_of_le_of_ne ((List.takeWhile_sublist _).length_le) hpos
        obtain ⟨h1, h2, h3, h4⟩ :=
          bisect_entry (s.key v) s.chunks hne hks _ rfl hposlt _ rfl
        have hfl : s.chunks.flatten = flat s := rfl
        rw [hfl] at h3 h4
        rw [if_pos h2]
        rw [scanIndex_eq s.chunks (s.key v) v
          (clampStart (slen s) a) (clampStop (slen s) b) hne _ _ _ _
          h1 rfl rfl (le_of_lt h2)]
        rw [h3, h4]
        have hkcl : ∀ e ∈ flat s, e.2 = v → e.1 = s.key v := by
          intro e he hev
          rw [hkc e he, hev]
        have hsplit : flat s
            = (flat s).takeWhile (fun e => decide (e.1 < s.key v))
              ++ (flat s).dropWhile (fun e => decide (e.1 < s.key v)) :=
          (List.takeWhile_append_dropWhile _ _).symm
        have hxs : (flat s).dropWhile (fun e => decide (e.1 < s.key v))
            = (flat s).drop
              ((flat s).takeWhile (fun e => decide (e.1 < s.key v))).length :=
          (drop_bisectLeftK (s.key v) (flat s)).symm
        have hbelow : ∀ q,
            q < ((flat s).takeWhile (fun e => decide (e.1 < s.key v))).length →
            ¬inWinMatch (flat s) v (clampStart (slen s) a) (clampStop (slen s) b) q := by
          intro q hq
          rintro ⟨_, _, hm⟩
          rw [List.getElem?_map] at hm
          rcases Option.map_eq_some'.mp hm with ⟨f, hf, hfv⟩
          have hfq : ((flat s).takeWhile (fun e => decide (e.1 < s.key v)))[q]?
              = some f := by
            rw [← List.getElem?_append_left hq]
            rw [← hsplit]
            exact hf
          have hftw := List.getElem?_mem hfq
          have hflt := List.mem_takeWhile_imp hftw
          simp only [decide_eq_true_eq] at hflt
          have hfmem : f ∈ flat s := (List.takeWhile_sublist _).subset hftw
          rw [hkcl f hfmem hfv] at hflt
          exact lt_irrefl _ hflt
        exact flatIndexLoop_spec (s.key v) v
          (clampStart (slen s) a) (clampStop (slen s) b) (flat s) hks hkcl
          ((flat s).dropWhile (fun e => decide (e.1 < s.key v)))
          ((flat s).takeWhile (fun e => decide (e.1 < s.key v))).length
          hxs (keys_ge_of_dropWhile (s.key v) hks) hbelow

/-! ### Invariant preservation across the public operations -/

theorem flat_add (s : SLWK K V) (v : V) :
    flat (add s v) = (flat s).orderedInsert (entryLe s.ordered) (s.key v, v) := by
  show (ofFlat _).flatten = _
  exact ofFlat_flatten _

theorem inv_add (s : SLWK K V) (v : V) (hinv : Inv s) : Inv (add s v) := by
  rcases hinv with ⟨⟨hne, hsort⟩, hkc⟩
  refine ⟨⟨ofFlat_ne_nil _, ?_⟩, ?_⟩
  · show List.Sorted (entryLe s.ordered) (flat (add s v))
    rw [flat_add]
    exact List.Sorted.orderedInsert (s.key v, v) (flat s) hsort
  · intro e he
    rw [flat_add] at he
    rcases (List.mem_orderedInsert _).mp he with rfl | he2
    · rfl
    · exact hkc e he2

theorem inv_update (s : SLWK K V) (vs : List V) (hinv : Inv s) : Inv (update s vs) := by
  induction vs generalizing s with
  | nil => exact hinv
  | cons v vs ih => exact ih (add s v) (inv_add s v hinv)

theorem inv_clearAll (s : SLWK K V) : Inv (clearAll s) := by
  refine ⟨⟨by simp [clearAll], ?_⟩, ?_⟩
  · show List.Sorted _ (flat (clearAll s))
    simp [clearAll, flat]
  · intro e he
    simp [clearAll, flat] at he

theorem inv_mkColl (key : V → K) (load : Nat) (ordered : Bool) (init : List V) :
    Inv (mkColl key load ordered init) := by
  apply inv_update
  refine ⟨⟨by simp, ?_⟩, ?_⟩
  · show List.Sorted _ (flat (SLWK.mk key ordered load []))
    simp [flat]
  · intro e he
    simp [flat] at he

omit [LinearOrder K] [LinearOrder V] in
/-- An element of `insertIdx` is the inserted element or an element of
the original list (with no bound on the position). -/
theorem mem_of_mem_insertIdx {α : Type} {a b : α} :
    ∀ {n : Nat} {l : List α}, b ∈ l.insertIdx n a → b = a ∨ b ∈ l := by
  intro n
  induction n with
  | zero =>
    intro l h
    rw [List.insertIdx_zero] at h
    rcases List.mem_cons.mp h with rfl | h2
    · exact Or.inl rfl
    · exact Or.inr h2
  | succ n2 ih =>
    intro l h
    cases l with
    | nil =>
      rw [List.insertIdx_succ_nil] at h
      simp at h
    | cons x xs =>
      rw [List.insertIdx_succ_cons] at h
      rcases List.mem_cons.mp h with rfl | h2
      · exact Or.inr (List.mem_cons_self b xs)
      · rcases ih h2 with h3 | h3
        · exact Or.inl h3
        · exact Or.inr (List.mem_cons_of_mem x h3)

/-- Re-wrapping any sorted, key-consistent entry list yields an
invariant-satisfying state with the same configuration. -/
theorem inv_of_sorted_kc (s : SLWK K V) (l : List (K × V))
    (hsorted : List.Sorted (entryLe s.ordered) l)
    (hkcl : ∀ e ∈ l, e.1 = s.key e.2) :
    Inv { s with chunks := ofFlat l } := by
  refine ⟨⟨ofFlat_ne_nil _, ?_⟩, ?_⟩
  · show List.Sorted (entryLe s.ordered) ((ofFlat l).flatten)
    rw [ofFlat_flatten]
    exact hsorted
  · intro e he
    rw [show flat { s with chunks := ofFlat l } = l from ofFlat_flatten l] at he
    exact hkcl e he

theorem update_fields (s : SLWK K V) (vs : List V) :
    (update s vs).ordered = s.ordered ∧ (update s vs).key = s.key ∧
      (update s vs).load = s.load := by
  induction vs generalizing s with
  | nil => exact ⟨rfl, rfl, rfl⟩
  | cons v vs ih => exact ih (add s v)

theorem inv_applyOp (s : SLWK K V) (op : Op K V) (hinv : Inv s) :
    Inv (applyOp s op) ∧ (applyOp s op).ordered = s.ordered ∧
      (applyOp s op).key = s.key := by
  have hinv2 := hinv
  rcases hinv2 with ⟨⟨hne, hsort⟩, hkc⟩
  cases op with
  | add v => exact ⟨inv_add s v hinv, rfl, rfl⟩
  | update vs =>
    exact ⟨inv_update s vs hinv, (update_fields s vs).1, (update_fields s vs).2.1⟩
  | clear => exact ⟨inv_clearAll s, rfl, rfl⟩
  | discard v =>
    have hgoal : applyOp s (Op.discard v) =
        (match discard s v with | .ok t => t | .error _ => s) := rfl
    rw [hgoal]
    by_cases hv : v ∈ values s
    · rcases (discard_spec s v ⟨hne, hsort⟩ hkc).2 hv with
        ⟨t, ht, hflat, _, _, htne, htkey, htord⟩
      rw [ht]
      refine ⟨⟨⟨htne, ?_⟩, ?_⟩, htord, htkey⟩
      · rw [htord, hflat]
        exact List.Pairwise.sublist (List.eraseP_sublist _) hsort
      · intro e he
        rw [hflat] at he
        rw [htkey]
        exact hkc e ((List.eraseP_sublist _).subset he)
    · rw [(discard_spec s v ⟨hne, hsort⟩ hkc).1 hv]
      exact ⟨hinv, rfl, rfl⟩
  | remove v =>
    have hgoal : applyOp s (Op.remove v) =
        (match remove s v with | .ok t => t | .error _ => s) := rfl
    rw [hgoal]
    by_cases hv : v ∈ values s
    · rcases (remove_spec s v ⟨hne, hsort⟩ hkc).2 hv with
        ⟨t, ht, hflat, _, _, htne, htkey, htord⟩
      rw [ht]
      refine ⟨⟨⟨htne, ?_⟩, ?_⟩, htord, htkey⟩
      · rw [htord, hflat]
        exact List.Pairwise.sublist (List.eraseP_sublist _) hsort
      · intro e he
        rw [hflat] at he
        rw [htkey]
        exact hkc e ((List.eraseP_sublist _).subset he)
    · rw [(remove_spec s v ⟨hne, hsort⟩ hkc).1.mpr hv]
      exact ⟨hinv, rfl, rfl⟩
  | delItem i =>
    have hgoal : applyOp s (Op.delItem i) =
        (match delItem s i with | .ok t => t | .error _ => s) := rfl
    rw [hgoal]
    cases hres : delItem s i with
    | error e => exact ⟨hinv, rfl, rfl⟩
    | ok t =>
      unfold delItem engineDelIdx at hres
      dsimp only at hres
      repeat' split at hres
      all_goals first
        | (injection hres with hres2
           subst hres2
           exact ⟨inv_of_sorted_kc s _
             (List.Pairwise.sublist (List.eraseIdx_sublist _ _) hsort)
             (fun e he => hkc e ((List.eraseIdx_sublist _ _).subset he)), rfl, rfl⟩)
        | cases hres
  | setItem i v =>
    have hgoal : applyOp s (Op.setItem i v) =
        (match setItem s i v with | .ok t => t | .error _ => s) := rfl
    rw [hgoal]
    cases hres : setItem s i v with
    | error e => exact ⟨hinv, rfl, rfl⟩
    | ok t =>
      unfold setItem engineSetIdx at hres
      dsimp only at hres
      repeat' split at hres
      all_goals first
        | (rename_i hsc
           injection hres with hres2
           subst hres2
           exact ⟨inv_of_sorted_kc s _ hsc (fun e he => by
             rcases List.mem_or_eq_of_mem_set he with h | rfl
             exacts [hkc e h, rfl]), rfl, rfl⟩)
        | cases hres
  | insertAt i v =>
    have hgoal : applyOp s (Op.insertAt i v) =
        (match insertAt s i v with | .ok t => t | .error _ => s) := rfl
    rw [hgoal]
    cases hres : insertAt s i v with
    | error e => exact ⟨hinv, rfl, rfl⟩
    | ok t =>
      unfold insertAt engineInsertAt at hres
      dsimp only at hres
      repeat' split at hres
      all_goals first
        | (rename_i hsc
           injection hres with hres2
           subst hres2
           exact ⟨inv_of_sorted_kc s _ hsc (fun e he => by
             rcases mem_of_mem_insertIdx he with rfl | h2
             exacts [rfl, hkc e h2]), rfl, rfl⟩)
        | cases hres
  | append v =>
    have hgoal : applyOp s (Op.append v) =
        (match appendV s v with | .ok t => t | .error _ => s) := rfl
    rw [hgoal]
    cases hres : appendV s v with
    | error e => exact ⟨hinv, rfl, rfl⟩
    | ok t =>
      unfold appendV engineAppendV at hres
      dsimp only at hres
      repeat' split at hres
      all_goals first
        | (rename_i hsc
           injection hres with hres2
           subst hres2
           exact ⟨inv_of_sorted_kc s _ hsc (fun e he => by
             rcases List.mem_append.mp he with h | h
             · exact hkc e h
             · have heq : e = (s.key v, v) := by simpa using h
               rw [heq]), rfl, rfl⟩)
        | cases hres
  | extend vs =>
    have hgoal : applyOp s (Op.extend vs) =
        (match extendV s vs with | .ok t => t | .error _ => s) := rfl
    rw [hgoal]
    cases hres : extendV s vs with
    | error e => exact ⟨hinv, rfl, rfl⟩
    | ok t =>
      unfold extendV engineExtendV at hres
      dsimp only at hres
      repeat' split at hres
      all_goals first
        | (rename_i hsc
           injection hres with hres2
           subst hres2
           exact ⟨inv_of_sorted_kc s _ hsc (fun e he => by
             rcases List.mem_append.mp he with h | h
             · exact hkc e h
             · rcases List.mem_map.mp h with ⟨w, _, hw⟩
               rw [← hw]), rfl, rfl⟩)
        | cases hres
  | pop i =>
    have hgoal : applyOp s (Op.pop i) =
        (match popAt s i with | .ok p => p.1 | .error _ => s) := rfl
    rw [hgoal]
    cases hres : popAt s i with
    | error e => exact ⟨hinv, rfl, rfl⟩
    | ok p =>
      unfold popAt at hres
      dsimp only at hres
      repeat' split at hres
      all_goals first
        | (injection hres with hres2
           subst hres2
           exact ⟨inv_of_sorted_kc s _
             (List.Pairwise.sublist (List.eraseIdx_sublist _ _) hsort)
             (fun f hf => hkc f ((List.eraseIdx_sublist _ _).subset hf)), rfl, rfl⟩)
        | cases hres
  | iadd vs =>
    exact ⟨inv_update s vs hinv, (update_fields s vs).1, (update_fields s vs).2.1⟩
  | imul m =>
    exact ⟨inv_update _ _ (inv_clearAll s), (update_fields (clearAll s) _).1,
      (update_fields (clearAll s) _).2.1⟩

theorem inv_applyOps (s : SLWK K V) (ops : List (Op K V)) (hinv : Inv s) :
    Inv (applyOps s ops) ∧ (applyOps s ops).ordered = s.ordered ∧
      (applyOps s ops).key = s.key := by
  induction ops generalizing s with
  | nil => exact ⟨hinv, rfl, rfl⟩
  | cons op rest ih =>
    rcases inv_applyOp s op hinv with ⟨h1, h2, h3⟩
    rcases ih _ h1 with ⟨g1, g2, g3⟩
    exact ⟨g1, g2.trans h2, g3.trans h3⟩

/-! ### Helper facts for the claim theorems -/

instance (l : List (K × V)) (v : V) (st sp : Int) (q : Nat) :
    Decidable (inWinMatch l v st sp q) := by
  unfold inWinMatch
  infer_instance

omit [LinearOrder K] in
/-- An acceptable rank for `index` is inside the list. -/
theorem inWinMatch_lt_length {l : List (K × V)} {v : V} {st sp : Int} {q : Nat}
    (h : inWinMatch l v st sp q) : q < l.length := by
  rcases h with ⟨-, -, h3⟩
  by_contra hq
  push_neg at hq
  rw [List.getElem?_eq_none (by simpa using hq)] at h3
  cases h3

omit [LinearOrder K] in
/-- To rule out every in-window occurrence it is enough to rule out
the in-range ranks. -/
theorem not_exists_inWinMatch (l : List (K × V)) (v : V) (st sp : Int)
    (h : ∀ q, q < l.length → ¬inWinMatch l v st sp q) :
    ¬∃ q, inWinMatch l v st sp q := by
  rintro ⟨q, hq⟩
  exact h q (inWinMatch_lt_length hq) hq

omit [LinearOrder K] [LinearOrder V] in
/-- A successful result is never the out-of-range failure. -/
theorem ok_ne_indexError {α : Type} (x : α) :
    (Except.ok x : Except PyErr α) ≠ Except.error PyErr.indexError := by
  simp

omit [LinearOrder K] [LinearOrder V] in
/-- The not-found failure is never the out-of-range failure. -/
theorem valueError_ne_indexError {α : Type} :
    (Except.error PyErr.valueError : Except PyErr α) ≠
      Except.error PyErr.indexError := by
  simp

/-- The self-check succeeds exactly on the states satisfying the full
invariant. -/
theorem check_iff_inv (s : SLWK K V) : check s = true ↔ Inv s := by
  unfold check engineCheck Inv EngineInv KeyConsistent
  simp [List.all_eq_true, List.isEmpty_iff, and_assoc]

/-- The unordered batch path appends the keyed entries to the flat
sequence, up to permutation. -/
theorem update_perm (s : SLWK K V) (vs : List V) :
    List.Perm (flat (update s vs)) (flat s ++ vs.map (fun v => (s.key v, v))) := by
  induction vs generalizing s with
  | nil => simp [update]
  | cons v vs ih =>
    have h1 : update s (v :: vs) = update (add s v) vs := rfl
    rw [h1]
    refine (ih (add s v)).trans ?_
    have h2 : flat (add s v) ++ vs.map (fun w => ((add s v).key w, w)) =
        (flat s).orderedInsert (entryLe s.ordered) (s.key v, v) ++
          vs.map (fun w => (s.key w, w)) := by
      rw [flat_add]
      rfl
    rw [h2]
    refine ((List.perm_orderedInsert _ _ _).append_right _).trans ?_
    rw [List.map_cons]
    exact List.perm_middle.symm

/-! ### Concrete collections used in the claims and their witnesses -/

/-- The empty collection carrying the configuration of `s` (the fresh
collection `__add__` starts from, line 447). -/
def emptyLike (s : SLWK K V) : SLWK K V :=
  { key := s.key, ordered := s.ordered, load := s.load, chunks := [] }

/-- A key-only collection holding the values `[1, 1, 2, 2, 3]` keyed
by the identity, laid out in two chunks. -/
def winColl : SLWK Int Int :=
  { key := fun x => x, ordered := false, load := 4,
    chunks := [[(1, 1), (1, 1), (2, 2)], [(2, 2), (3, 3)]] }

/-- A key-only collection holding one value. -/
def cmpA : SLWK Int Int :=
  { key := fun x => x, ordered := false, load := 4, chunks := [[(0, 0)]] }

/-- An empty collection with the same configuration as `cmpA`. -/
def cmpB : SLWK Int Int :=
  { key := fun x => x, ordered := false, load := 4, chunks := [] }

/-- A key-only collection holding three distinct values of equal key
(the spec's `a`, `b`, `c` example, as `1`, `2`, `3` under a constant
key function). -/
def dupColl : SLWK Int Int :=
  { key := fun _ => 0, ordered := false, load := 4,
    chunks := [[(0, 1), (0, 2), (0, 3)]] }

/-! ### The claims -/

/-- C1, counterexample: with the singleton collection `cmpA` and the
empty collection `cmpB`, every aligned value pair (vacuously)
satisfies the element relation, yet `cmpA <= cmpB` and `cmpB >= cmpA`
are both false — the non-strict comparisons do impose a length
condition (`__le__` and `__ge__`, lines 503-516, both test
`len(self)` against `len(that)`), refuting the claim as stated. -/
theorem C1_le_ge_counterexample :
    Inv cmpA ∧ Inv cmpB ∧
    (∀ p ∈ (values cmpA).zip (values cmpB), p.1 ≤ p.2) ∧
    leColl cmpA cmpB = false ∧
    (∀ p ∈ (values cmpB).zip (values cmpA), p.2 ≤ p.1) ∧
    geColl cmpB cmpA = false := by
  decide

/-- C1, amended: all six whole-collection comparisons compare the
unwrapped value sequences pairwise up to the shorter length, and every
one of the four order operators — the non-strict `<=` and `>=`
included — additionally imposes its length condition: `A < B` and
`A <= B` require `len A <= len B`, `A > B` and `A >= B` require
`len B <= len A`; `A == B` requires equal lengths plus pairwise
equality, and `A != B` holds on different lengths or some differing
aligned pair. -/
theorem C1_comparisons (A B : SLWK K V) :
    (eqColl A B = true ↔
      slen A = slen B ∧ ∀ p ∈ (values A).zip (values B), p.1 = p.2) ∧
    (neColl A B = true ↔
      slen A ≠ slen B ∨ ∃ p ∈ (values A).zip (values B), p.1 ≠ p.2) ∧
    (ltColl A B = true ↔
      slen A ≤ slen B ∧ ∀ p ∈ (values A).zip (values B), p.1 < p.2) ∧
    (leColl A B = true ↔
      slen A ≤ slen B ∧ ∀ p ∈ (values A).zip (values B), p.1 ≤ p.2) ∧
    (gtColl A B = true ↔
      slen B ≤ slen A ∧ ∀ p ∈ (values A).zip (values B), p.2 < p.1) ∧
    (geColl A B = true ↔
      slen B ≤ slen A ∧ ∀ p ∈ (values A).zip (values B), p.2 ≤ p.1) := by
  unfold eqColl neColl ltColl leColl gtColl geColl
  simp [List.all_eq_true, List.any_eq_true]

/-- C2: on every collection satisfying the invariant, `index` returns
the smallest global rank inside the clamped `[start, stop)` window
whose stored value equals the argument, and raises `ValueError`
exactly when no in-window rank holds the value (in particular whenever
the clamped window is empty or inverted); on the concrete key-only
collection `[1, 1, 2, 2, 3]` keyed by the identity,
`index 2 0 5 = 2`, `index 2 3 5 = 3`, and `index 2 4 5` raises
`ValueError`. -/
theorem C2_index_window_rank :
    (∀ (K V : Type) [LinearOrder K] [LinearOrder V]
        (s : SLWK K V) (v : V) (a b : Option Int), Inv s →
      (∀ m, index s v a b = .ok m ↔
        (inWinMatch (flat s) v (clampStart (slen s) a) (clampStop (slen s) b) m ∧
          ∀ q, q < m →
            ¬inWinMatch (flat s) v (clampStart (slen s) a)
              (clampStop (slen s) b) q)) ∧
      (index s v a b = .error .valueError ↔
        ¬∃ q, inWinMatch (flat s) v (clampStart (slen s) a)
          (clampStop (slen s) b) q)) ∧
    index winColl 2 (some 0) (some 5) = .ok 2 ∧
    index winColl 2 (some 3) (some 5) = .ok 3 ∧
    index winColl 2 (some 4) (some 5) = .error .valueError := by
  have hinv : Inv winColl := by decide
  refine ⟨fun K V _ _ s v a b hs => index_spec s v a b hs.1 hs.2, ?_, ?_, ?_⟩
  · exact ((index_spec winColl 2 (some 0) (some 5) hinv.1 hinv.2).1 2).mpr
      ⟨by decide, by decide⟩
  · exact ((index_spec winColl 2 (some 3) (some 5) hinv.1 hinv.2).1 3).mpr
      ⟨by decide, by decide⟩
  · exact (index_spec winColl 2 (some 4) (some 5) hinv.1 hinv.2).2.mpr
      (not_exists_inWinMatch _ _ _ _ (by decide))

/-- C2, witness: the general characterization of `C2_index_window_rank`
instantiated on the concrete collection `winColl`. -/
theorem C2_index_window_rank_witness :
    Inv winColl ∧
    ((∀ m, index winColl 2 none none = .ok m ↔
        (inWinMatch (flat winColl) 2 (clampStart (slen winColl) none)
            (clampStop (slen winColl) none) m ∧
          ∀ q, q < m →
            ¬inWinMatch (flat winColl) 2 (clampStart (slen winColl) none)
              (clampStop (slen winColl) none) q)) ∧
      (index winColl 2 none none = .error .valueError ↔
        ¬∃ q, inWinMatch (flat winColl) 2 (clampStart (slen winColl) none)
          (clampStop (slen winColl) none) q)) :=
  ⟨by decide, C2_index_window_rank.1 Int Int winColl 2 none none (by decide)⟩

/-- C3: on every collection satisfying the invariant, the membership
test returns, without raising, exactly whether some stored entry's
value equals the argument. -/
theorem C3_contains_membership (s : SLWK K V) (v : V) (h : Inv s) :
    contains s v = .ok (decide (∃ e ∈ flat s, e.2 = v)) := by
  rw [contains_spec s v h.1 h.2]
  congr 1
  exact decide_eq_decide.mpr (mem_values s v)

/-- C3, witness: the membership characterization on the concrete
collection `winColl` at the present value `2`. -/
theorem C3_contains_membership_witness :
    Inv winColl ∧
      contains winColl 2 = .ok (decide (∃ e ∈ flat winColl, e.2 = 2)) :=
  ⟨by decide, C3_contains_membership winColl 2 (by decide)⟩

/-- C4: on every collection satisfying the invariant, `count` returns,
without raising, the number of stored values equal to the argument;
in particular, on the equal-key collection holding `1`, `2`, `3` with
a fourth equal-key duplicate of `1` added, the count of `1` is 2. -/
theorem C4_count_occurrences (s : SLWK K V) (v : V) (h : Inv s) :
    count s v = .ok ((values s).count v) ∧
    count (add dupColl 1) 1 = .ok 2 := by
  refine ⟨count_spec s v h.1 h.2, ?_⟩
  have hinv : Inv (add dupColl 1) := by decide
  rw [count_spec (add dupColl 1) 1 hinv.1 hinv.2]
  have hc : (values (add dupColl 1)).count 1 = 2 := by decide
  rw [hc]

/-- C4, witness: the count characterization on the concrete equal-key
collection `dupColl` at the value `2`. -/
theorem C4_count_occurrences_witness :
    Inv dupColl ∧
      (count dupColl 2 = .ok ((values dupColl).count 2) ∧
        count (add dupColl 1) 1 = .ok 2) :=
  ⟨by decide, C4_count_occurrences dupColl 2 (by decide)⟩

/-- C5: on every collection satisfying the invariant, `remove` raises
`ValueError` exactly when the value is absent (covering the empty
collection, a query key above every chunk maximum, and an exhausted
equal-key run), and on a present value returns normally having
deleted exactly the first stored occurrence, decreasing the length by
one. -/
theorem C5_remove_first_occurrence (s : SLWK K V) (v : V) (h : Inv s) :
    (remove s v = .error .valueError ↔ v ∉ values s) ∧
    (v ∈ values s → ∃ t, remove s v = .ok t ∧
      values t = (values s).eraseP (fun x => decide (x = v)) ∧
      slen t + 1 = slen s) := by
  rcases remove_spec s v h.1 h.2 with ⟨h1, h2⟩
  refine ⟨h1, fun hv => ?_⟩
  rcases h2 hv with ⟨t, ht, -, hvals, hlen, -, -, -⟩
  exact ⟨t, ht, hvals, hlen⟩

/-- C5, witness: the removal characterization on the concrete
collection `winColl` at the present value `1`. -/
theorem C5_remove_first_occurrence_witness :
    Inv winColl ∧
      ((remove winColl 1 = .error .valueError ↔ (1 : Int) ∉ values winColl) ∧
        ((1 : Int) ∈ values winColl → ∃ t, remove winColl 1 = .ok t ∧
          values t = (values winColl).eraseP (fun x => decide (x = 1)) ∧
          slen t + 1 = slen winColl)) :=
  ⟨by decide, C5_remove_first_occurrence winColl 1 (by decide)⟩

/-- C6: on every collection satisfying the invariant, `discard` of an
absent value never raises and returns the very same state (length and
contents unchanged), and on a present value deletes exactly the first
stored occurrence. -/
theorem C6_discard_noop_or_first (s : SLWK K V) (v : V) (h : Inv s) :
    (v ∉ values s → discard s v = .ok s) ∧
    (v ∈ values s → ∃ t, discard s v = .ok t ∧
      values t = (values s).eraseP (fun x => decide (x = v)) ∧
      slen t + 1 = slen s) := by
  rcases discard_spec s v h.1 h.2 with ⟨h1, h2⟩
  refine ⟨h1, fun hv => ?_⟩
  rcases h2 hv with ⟨t, ht, -, hvals, hlen, -, -, -⟩
  exact ⟨t, ht, hvals, hlen⟩

/-- C6, witness: the discard characterization on the concrete
collection `dupColl` at the absent value `5`. -/
theorem C6_discard_noop_or_first_witness :
    Inv dupColl ∧
      (((5 : Int) ∉ values dupColl → discard dupColl 5 = .ok dupColl) ∧
        ((5 : Int) ∈ values dupColl → ∃ t, discard dupColl 5 = .ok t ∧
          values t = (values dupColl).eraseP (fun x => decide (x = 5)) ∧
          slen t + 1 = slen dupColl)) :=
  ⟨by decide, C6_discard_noop_or_first dupColl 5 (by decide)⟩

/-- C7: starting from any constructed collection and applying any
sequence of public operations, the flattened entry sequence (the
chunks concatenated in chunk order) is non-decreasing under the entry
order of the declared mode: key order alone in key-only mode, and
(key, value) lexicographic order in orderable-value mode. -/
theorem C7_sorted_invariant (key : V → K) (load : Nat) (ordered : Bool)
    (init : List V) (ops : List (Op K V)) :
    List.Sorted (entryLe ordered)
      (flat (applyOps (mkColl key load ordered init) ops)) := by
  rcases inv_applyOps (mkColl key load ordered init) ops
    (inv_mkColl key load ordered init) with ⟨hinv, hord, -⟩
  have hs := hinv.1.2
  have h2 : (mkColl key load ordered init).ordered = ordered :=
    (update_fields _ init).1
  rw [hord, h2] at hs
  exact hs

/-- C8: after any sequence of public operations on any constructed
collection, every stored entry's key equals the (pure) key function
applied to its value, and this is exactly the predicate the
self-check verifies: `_check` succeeds on the resulting state. -/
theorem C8_key_consistency (key : V → K) (load : Nat) (ordered : Bool)
    (init : List V) (ops : List (Op K V)) :
    (∀ e ∈ flat (applyOps (mkColl key load ordered init) ops),
      e.1 = key e.2) ∧
    check (applyOps (mkColl key load ordered init) ops) = true := by
  rcases inv_applyOps (mkColl key load ordered init) ops
    (inv_mkColl key load ordered init) with ⟨hinv, -, hkey⟩
  have h2 : (mkColl key load ordered init).key = key :=
    (update_fields _ init).2.1
  refine ⟨?_, (check_iff_inv _).mpr hinv⟩
  intro e he
  have h3 := hinv.2 e he
  rw [hkey, h2] at h3
  exact h3

/-- C9: `A + B` is a new collection carrying A's key function,
representation flag and load target, sorted under A's entry order,
whose value sequence is a permutation of A's values followed by B's
(the sorted merge of the two), with length `len A + len B`; the
operands are untouched (the operations are pure functions of the
state). -/
theorem C9_concat (A B : SLWK K V) :
    (addColl A B).key = A.key ∧ (addColl A B).ordered = A.ordered ∧
    (addColl A B).load = A.load ∧
    List.Sorted (entryLe A.ordered) (flat (addColl A B)) ∧
    List.Perm (values (addColl A B)) (values A ++ values B) ∧
    slen (addColl A B) = slen A + slen B := by
  have hbase : Inv (emptyLike A) := by
    refine ⟨⟨?_, ?_⟩, ?_⟩
    · intro c hc
      simp [emptyLike] at hc
    · simp [flat, emptyLike]
    · intro e he
      simp [flat, emptyLike] at he
  have hfields := update_fields (emptyLike A) (asList A ++ asList B)
  have haddeq : addColl A B = update (emptyLike A) (asList A ++ asList B) := rfl
  have hinv : Inv (addColl A B) := by
    rw [haddeq]
    exact inv_update _ _ hbase
  have hperm := update_perm (emptyLike A) (asList A ++ asList B)
  refine ⟨?_, ?_, ?_, ?_, ?_, ?_⟩
  · rw [haddeq]
    exact hfields.2.1
  · rw [haddeq]
    exact hfields.1
  · rw [haddeq]
    exact hfields.2.2
  · have hs := hinv.1.2
    have ho : (addColl A B).ordered = A.ordered := by
      rw [haddeq]
      exact hfields.1
    rw [ho] at hs
    exact hs
  · have h5 := hperm.map Prod.snd
    have h6 : List.map Prod.snd
        (flat (emptyLike A) ++
          (asList A ++ asList B).map (fun v => ((emptyLike A).key v, v))) =
        values A ++ values B := by
      have hfe : flat (emptyLike A) = [] := rfl
      rw [hfe, List.nil_append, List.map_map]
      have hco : (Prod.snd ∘ fun v => ((emptyLike A).key v, v)) = id := rfl
      rw [hco, List.map_id]
      rfl
    rw [h6] at h5
    rw [haddeq]
    exact h5
  · have h8 := hperm.length_eq
    rw [haddeq]
    show (flat (update (emptyLike A) (asList A ++ asList B))).length =
      slen A + slen B
    rw [h8]
    have hfe : flat (emptyLike A) = [] := rfl
    rw [hfe, List.nil_append, List.length_map, List.length_append]
    have h9 : (asList A).length = slen A := by
      show ((flat A).map Prod.snd).length = slen A
      rw [List.length_map]
      rfl
    have h10 : (asList B).length = slen B := by
      show ((flat B).map Prod.snd).length = slen B
      rw [List.length_map]
      rfl
    rw [h9, h10]

/-- C10: under the invariants, none of the five scan-based operations
(`__contains__`, `discard`, `remove`, `count`, `index`) ever surfaces
an out-of-range (`IndexError`) failure: every bisect position the
scans read from is in bounds. -/
theorem C10_no_index_error (s : SLWK K V) (v : V) (a b : Option Int)
    (h : Inv s) :
    contains s v ≠ .error .indexError ∧
    discard s v ≠ .error .indexError ∧
    remove s v ≠ .error .indexError ∧
    count s v ≠ .error .indexError ∧
    index s v a b ≠ .error .indexError := by
  refine ⟨?_, ?_, ?_, ?_, ?_⟩
  · rw [contains_spec s v h.1 h.2]
    exact ok_ne_indexError _
  · by_cases hv : v ∈ values s
    · rcases (discard_spec s v h.1 h.2).2 hv with ⟨t, ht, -⟩
      rw [ht]
      exact ok_ne_indexError _
    · rw [(discard_spec s v h.1 h.2).1 hv]
      exact ok_ne_indexError _
  · by_cases hv : v ∈ values s
    · rcases (remove_spec s v h.1 h.2).2 hv with ⟨t, ht, -⟩
      rw [ht]
      exact ok_ne_indexError _
    · rw [(remove_spec s v h.1 h.2).1.mpr hv]
      exact valueError_ne_indexError
  · rw [count_spec s v h.1 h.2]
    exact ok_ne_indexError _
  · by_cases hex : ∃ q, inWinMatch (flat s) v (clampStart (slen s) a)
        (clampStop (slen s) b) q
    · have hm := ((index_spec s v a b h.1 h.2).1 (Nat.find hex)).mpr
        ⟨Nat.find_spec hex, fun q hq => Nat.find_min hex hq⟩
      rw [hm]
      exact ok_ne_indexError _
    · rw [(index_spec s v a b h.1 h.2).2.mpr hex]
      exact valueError_ne_indexError

/-- C10, witness: the five no-`IndexError` conclusions on the concrete
collection `winColl` at the absent value `9` with the default window. -/
theorem C10_no_index_error_witness :
    Inv winColl ∧
      (contains winColl 9 ≠ .error .indexError ∧
        discard winColl 9 ≠ .error .indexError ∧
        remove winColl 9 ≠ .error .indexError ∧
        count winColl 9 ≠ .error .indexError ∧
        index winColl 9 none none ≠ .error .indexError) :=
  ⟨by decide, C10_no_index_error winColl 9 none none (by decide)⟩

end SLWK

end SLWKVerif
